import Mathlib

/-!
Verification development for the presquel core (model/base.py, model/version.py,
model/schema.py, model/change.py, schemagen/upgrade.py).

The Python sources are shallowly embedded: pure methods become Lean functions,
the mutable dict/list state is passed explicitly, Python exceptions become the
`PyErr` error type of an `Except` result, and the (terminating) recursions of
the source are driven by an explicit fuel argument; exhausting the fuel is
reported as `PyErr.recursionError`, the same failure CPython reports when its
recursion limit is hit.
-/

/-- Python exception classes raised by the embedded code. -/
inductive PyErr where
  /-- `TypeError`, e.g. from a call with missing required positional arguments
      or from concatenating `str` with a non-`str` object. -/
  | typeError (msg : String)
  /-- a failed `assert` statement. -/
  | assertionError (msg : String)
  /-- `raise Exception(msg)`. -/
  | pyException (msg : String)
  /-- attribute access on `None`. -/
  | attributeError (msg : String)
  /-- `list.remove` of a missing element. -/
  | valueError (msg : String)
  /-- CPython recursion-limit failure; also the fuel-exhaustion marker of
      this embedding. -/
  | recursionError
deriving DecidableEq, Repr

/-! ### Python `dict` and `list.sort`

Python dicts preserve insertion order; they are modelled as association
lists where `dictSet` updates in place (keeping the key position) and
appends new keys at the end, exactly as CPython does. -/

def dictFind [DecidableEq α] : List (α × β) → α → Option β
  | [], _ => none
  | (k, v) :: rest, key => if k = key then some v else dictFind rest key

def dictSet [DecidableEq α] : List (α × β) → α → β → List (α × β)
  | [], key, v => [(key, v)]
  | (k, w) :: rest, key, v =>
    if k = key then (key, v) :: rest else (k, w) :: dictSet rest key v

def dictDelete [DecidableEq α] : List (α × β) → α → List (α × β)
  | [], _ => []
  | (k, w) :: rest, key =>
    if k = key then rest else (k, w) :: dictDelete rest key

def dictValues : List (α × β) → List β := List.map Prod.snd

/-- Insert into a sorted list keeping equal elements in their original
relative position (the inserted one in front of nothing it equals). -/
def pyInsertLe (le : α → α → Bool) (x : α) : List α → List α
  | [] => [x]
  | y :: ys => if le x y then x :: y :: ys else y :: pyInsertLe le x ys

/-- Model of Python `list.sort` / `sorted`: Timsort is a stable ascending
sort, and a stable sort is determined uniquely by the comparison, so a
stable insertion sort models it faithfully. -/
def pySortBy (le : α → α → Bool) : List α → List α
  | [] => []
  | x :: xs => pyInsertLe le x (pySortBy le xs)

/-! ### `Order` (model/base.py) -/

/-- `Order._clean_order_str`: strip all non-alphanumeric characters other
than a dot; an empty result is dropped (`None`). -/
def cleanOrderStr (s : String) : Option String :=
  let kept := String.mk (s.toList.filter (fun c => c.isAlphanum || c = '.'))
  if kept.length ≤ 0 then none else some kept

/-- `Order._clean_order_list`. -/
def cleanOrderList : Option (List String) → List String
  | none => []
  | some l => l.filterMap cleanOrderStr

/-- Post-constructor state of a Python `Order` object.  `oid` models object
identity: `Order` overrides neither `__eq__` nor `__hash__`, so dict keys
compare by identity, and distinct objects carry distinct `oid`s. -/
structure POrder where
  i1 : Int
  i2 : Int
  i3 : Int
  beforeLabels : List String
  afterLabels : List String
  oid : Nat
deriving DecidableEq, Repr

/-- `Order.__sub__`: first non-zero component difference of the triple. -/
def ordSub (a b : POrder) : Int :=
  if a.i1 - b.i1 ≠ 0 then a.i1 - b.i1
  else if a.i2 - b.i2 ≠ 0 then a.i2 - b.i2
  else if a.i3 - b.i3 ≠ 0 then a.i3 - b.i3
  else 0

/-- A node of the `full_sort` dependency graph: either one of the `Order`
objects or one of the free-form label strings. -/
inductive Node where
  | ord (o : POrder)
  | str (s : String)
deriving DecidableEq, Repr

/-- `input_sorter` inside `Order.full_sort`.  Note the Python source
computes the string/string case as `(a == b and 0) or (a < b and -1) or 1`,
which yields `1` (not `0`) for equal strings because `0` is falsy; that is
reproduced here. -/
def inputSorter : Node → Node → Int
  | .str a, .str b => if a = b then 1 else if a < b then -1 else 1
  | .str _, .ord _ => 1
  | .ord _, .str _ => -1
  | .ord a, .ord b => ordSub a b

def nodeLe (a b : Node) : Bool := inputSorter a b ≤ 0

abbrev DepMap := List (Node × List Node)

/-- One `occurs_before` label of an order: the label node gains the order
as a dependency, and a label seen for the first time is appended to the
input list. -/
def addBeforeLabel (o : POrder) (st2 : DepMap × List Node) (name : String) :
    DepMap × List Node :=
  match dictFind st2.1 (.str name) with
  | some ds => (dictSet st2.1 (.str name) (ds ++ [.ord o]), st2.2)
  | none => (dictSet st2.1 (.str name) [.ord o], st2.2 ++ [.str name])

/-- One order of the `depends`-building loop: the order node depends on
its `occurs_after` labels, then every `occurs_before` label is
processed. -/
def addOrderDeps (st : DepMap × List Node) (o : POrder) : DepMap × List Node :=
  o.beforeLabels.foldl (addBeforeLabel o)
    (dictSet st.1 (.ord o) (o.afterLabels.map Node.str), st.2)

/-- The `depends` dict and the extended `input_list` built by the first loop
of `Order.full_sort`: each order depends on its `occurs_after` labels, each
`occurs_before` label depends on the order, and labels that become keys are
appended to the input list. -/
def buildDepends (orders : List POrder) : DepMap × List Node :=
  orders.foldl addOrderDeps ([], orders.map Node.ord)

/-- Every key of the dependency dict appears in the accompanying input
list (the loop appends fresh label keys to it, and order keys were in it
from the start). -/
def KeysIn (st : DepMap × List Node) : Prop :=
  ∀ k, (dictFind st.1 k).isSome → k ∈ st.2

def fullSortCyclicMsg : String :=
  "cyclic dependency in orders (FIXME add better debugging)"

def fullSortInternalMsg : String :=
  "Unexpected internal error (bad sort algorithm)"

abbrev VisMap := List (Node × Bool)

/-- The tail of `Order.__tsort` after the dependency loop: pop the visiting
stack, check the popped element, mark the node fully visited and append it
to the result list. -/
def tsortFinish (v : Node) (vis : VisMap) (stk : List Node) (out : List Node) :
    Except PyErr (VisMap × List Node × List Node) :=
  match stk with
  | [] => .error (.pyException fullSortInternalMsg)
  | r :: rest =>
    if r = v then .ok (dictSet vis v false, rest, out ++ [v])
    else .error (.pyException fullSortInternalMsg)

/-- The `for dep in depends[input_val]` loop of `Order.__tsort`,
parameterised by the recursive visit function. -/
def tsortFoldGo
    (visitFn : Node → DepMap → VisMap → List Node → List Node →
      Except PyErr (VisMap × List Node × List Node)) :
    List Node → DepMap → VisMap → List Node → List Node →
      Except PyErr (VisMap × List Node × List Node)
  | [], _, vis, stk, out => .ok (vis, stk, out)
  | d :: rest, dep, vis, stk, out =>
    match dictFind vis d with
    | none =>
      match visitFn d dep vis stk out with
      | .error e => .error e
      | .ok (vis', stk', out') => tsortFoldGo visitFn rest dep vis' stk' out'
    | some true => .error (.pyException fullSortCyclicMsg)
    | some false => tsortFoldGo visitFn rest dep vis stk out

/-- `Order.__tsort`, indexed by fuel (one unit per recursive visit).  Marks
the node as being visited, pushes it, walks its dependency list, then runs
the pop/append tail. -/
def tsortVisit : Nat → Node → DepMap → VisMap → List Node → List Node →
    Except PyErr (VisMap × List Node × List Node)
  | 0, _, _, _, _, _ => .error .recursionError
  | fuel + 1, v, dep, vis, stk, out =>
    let vis1 := dictSet vis v true
    let stk1 := v :: stk
    match dictFind dep v with
    | some ds =>
      match tsortFoldGo (tsortVisit fuel) ds dep vis1 stk1 out with
      | .error e => .error e
      | .ok (vis2, stk2, out2) => tsortFinish v vis2 stk2 out2
    | none => tsortFinish v vis1 stk1 out

/-- The main `for val in input_list` loop of `Order.full_sort`. -/
def tsortMainGo
    (visitFn : Node → DepMap → VisMap → List Node → List Node →
      Except PyErr (VisMap × List Node × List Node)) :
    List Node → DepMap → VisMap → List Node → List Node →
      Except PyErr (VisMap × List Node × List Node)
  | [], _, vis, stk, out => .ok (vis, stk, out)
  | v :: rest, dep, vis, stk, out =>
    match dictFind vis v with
    | none =>
      match visitFn v dep vis stk out with
      | .error e => .error e
      | .ok (vis', stk', out') => tsortMainGo visitFn rest dep vis' stk' out'
    | some true => .error (.pyException fullSortCyclicMsg)
    | some false => tsortMainGo visitFn rest dep vis stk out

/-- All nodes that can ever be visited: the extended input list together
with every member of a dependency list. -/
def allNodesOf (orders : List POrder) : List Node :=
  let (dep0, input0) := buildDepends orders
  (input0 ++ dep0.foldr (fun (kv : Node × List Node) acc => kv.2 ++ acc) []).dedup

/-- Each `__tsort` call grays a previously unvisited node, so the visit
depth (and hence the fuel needed) is bounded by the node count. -/
def suffFuel (orders : List POrder) : Nat := (allNodesOf orders).length + 1

/-- `Order.full_sort`: build the dependency graph, pre-sort the node list
and every dependency list with `input_sorter`, run the DFS from every
input node, and keep only the `Order` nodes of the result. -/
def pyFullSort (orders : List POrder) : Except PyErr (List POrder) :=
  let (dep0, input0) := buildDepends orders
  let inputList := pySortBy nodeLe input0
  let dep := dep0.map (fun (kv : Node × List Node) => (kv.1, pySortBy nodeLe kv.2))
  match tsortMainGo (tsortVisit (suffFuel orders)) inputList dep [] [] [] with
  | .error e => .error e
  | .ok (_, _, sortedList) =>
    .ok (sortedList.filterMap (fun n =>
      match n with
      | .ord o => some o
      | .str _ => none))

/-- The dependency relation of the graph `full_sort` builds:
`depRel dep a b` holds when `b` is in the dependency list of `a`
(that is, the sort must emit `b` before `a`). -/
def depRel (dep : DepMap) (a b : Node) : Prop :=
  match dictFind dep a with
  | some ds => b ∈ ds
  | none => False

/-- The input to `full_sort` contains a dependency cycle. -/
def hasCycle (orders : List POrder) : Prop :=
  ∃ n, Relation.TransGen (depRel (buildDepends orders).1) n n

/-! ### Schema entities (model/schema.py, model/change.py) -/

/-- `SchemaObjectType` constants of model/base.py (identity-compared enum). -/
inductive SType where
  | column | constraint | lookupTable | primaryKey | sequence
  | indexT | table | view | data | procedure
deriving DecidableEq, Repr

/-- `ChangeType` constants of model/change.py. -/
inductive ChangeType where
  | add | remove | rename | alter | sql
deriving DecidableEq, Repr

def CHANGE_TYPES_L : List ChangeType := [.add, .remove, .rename, .alter, .sql]

/-- Post-constructor state of a `Change`.  The diff engine reads only the
order, the object type, the change type and (for `SchemaChange`) the
previous name; `affects`, comments and the `SqlChange` sql payload are
never consulted by it and are omitted. -/
inductive PChange where
  | schemaChange (order : POrder) (objectType : SType) (changeType : ChangeType)
      (previousName : Option String)
  | sqlChange (order : POrder) (objectType : SType)
deriving DecidableEq, Repr

def PChange.changeType : PChange → ChangeType
  | .schemaChange _ _ ct _ => ct
  | .sqlChange _ _ => .sql

def PChange.order : PChange → POrder
  | .schemaChange o _ _ _ => o
  | .sqlChange o _ => o

def PChange.objectType : PChange → SType
  | .schemaChange _ t _ _ => t
  | .sqlChange _ t => t

/-- `previous_name`; a `SqlChange` has no such attribute, but it can never
land in the rename bucket (its change type is always `sql`), so the `none`
default is unreachable where the engine reads it. -/
def PChange.previousName : PChange → Option String
  | .schemaChange _ _ _ pn => pn
  | .sqlChange _ _ => none

/-- `SchemaObject.create_full_name`: join the parts with dots, replacing
`None` by the empty string (so a table with no catalog/schema is named
`..name`). -/
def createFullName (parts : List (Option String)) : String :=
  String.intercalate "." (parts.map (fun p => p.getD ""))

/-- Post-constructor state of the `SchemaObject` variants the diff engine
dispatches on (`Table`, `View`, `Column`, `Constraint`).  Fields the engine
never reads (comments, value types, sql payloads, table space, ...) are
omitted.  A `Constraint` keeps the raw `constraint_type` string, which the
base constructor also installs as its name and full name. -/
inductive SObj where
  | table (order : POrder) (catalogName schemaName : Option String) (name : String)
      (columns : List SObj) (constraints : List SObj) (changes : List PChange)
  | view (order : POrder) (catalogName schemaName : Option String) (name : String)
      (columns : List SObj) (constraints : List SObj) (changes : List PChange)
  | column (order : POrder) (name : String) (constraints : List SObj)
      (changes : List PChange)
  | constraint (order : POrder) (constraintType : String) (changes : List PChange)
deriving Repr

/-- `full_name`: a `ColumnarSchemaObject` computes
`create_full_name(catalog, schema, name)` at construction; columns and
constraints fall back to their name. -/
def SObj.fullName : SObj → String
  | .table _ c s n _ _ _ => createFullName [c, s, n]
  | .view _ c s n _ _ _ => createFullName [c, s, n]
  | .column _ n _ _ => n
  | .constraint _ ct _ => ct

def SObj.name : SObj → String
  | .table _ _ _ n _ _ _ => n
  | .view _ _ _ n _ _ _ => n
  | .column _ n _ _ => n
  | .constraint _ ct _ => ct

def SObj.order : SObj → POrder
  | .table o _ _ _ _ _ _ => o
  | .view o _ _ _ _ _ _ => o
  | .column o _ _ _ => o
  | .constraint o _ _ => o

def SObj.changes : SObj → List PChange
  | .table _ _ _ _ _ _ cs => cs
  | .view _ _ _ _ _ _ cs => cs
  | .column _ _ _ cs => cs
  | .constraint _ _ cs => cs

/-- The `constraints` property: top constraints for tables and views, the
column constraint list for columns, and the base-class empty list for
constraints themselves. -/
def SObj.constraints : SObj → List SObj
  | .table _ _ _ _ _ cons _ => cons
  | .view _ _ _ _ _ cons _ => cons
  | .column _ _ cons _ => cons
  | .constraint _ _ _ => []

def SObj.columns : SObj → List SObj
  | .table _ _ _ _ cols _ _ => cols
  | .view _ _ _ _ cols _ _ => cols
  | _ => []

def SObj.objectType : SObj → SType
  | .table .. => .table
  | .view .. => .view
  | .column .. => .column
  | .constraint .. => .constraint

/-- An element of an `after` list handed to `SchemaUpgradedSet`: either a
schema object or a change. -/
inductive AfterItem where
  | obj (s : SObj)
  | chg (c : PChange)
deriving Repr

def AfterItem.order : AfterItem → POrder
  | .obj s => s.order
  | .chg c => c.order

/-- `UpgradeAnalysisProblem`: the subject object and the message. -/
structure Problem where
  subject : Option AfterItem
  message : String
deriving Repr

/-! ### The diff engine (schemagen/upgrade.py) -/

/-- Which `UpgradeAnalysis` subclass a constructed analysis belongs to
(`_create_upgrade_schema` only ever instantiates these three). -/
inductive UAKind where
  | table | view | column
deriving DecidableEq, Repr

mutual
inductive UpgradeAnalysisT where
  | mk (kind : UAKind) (before : Option SObj) (after : Option AfterItem)
      (errors : List Problem) (warnings : List Problem)
      (catChanges : List (ChangeType × List PChange))
      (constraintChanges : SchemaUpgradedSetT)
      (columnUpgrades : Option SchemaUpgradedSetT) : UpgradeAnalysisT
inductive SchemaUpgradedSetT where
  | mk (errors : List Problem) (warnings : List Problem)
      (upgrades : List UpgradeAnalysisT)
      (standAloneChanges : List PChange) : SchemaUpgradedSetT
end

def UpgradeAnalysisT.beforeOf : UpgradeAnalysisT → Option SObj
  | .mk _ b _ _ _ _ _ _ => b

def UpgradeAnalysisT.afterOf : UpgradeAnalysisT → Option AfterItem
  | .mk _ _ a _ _ _ _ _ => a

def UpgradeAnalysisT.errorsOf : UpgradeAnalysisT → List Problem
  | .mk _ _ _ e _ _ _ _ => e

def UpgradeAnalysisT.warningsOf : UpgradeAnalysisT → List Problem
  | .mk _ _ _ _ w _ _ _ => w

def UpgradeAnalysisT.catChangesOf : UpgradeAnalysisT → List (ChangeType × List PChange)
  | .mk _ _ _ _ _ c _ _ => c

def UpgradeAnalysisT.constraintChangesOf : UpgradeAnalysisT → SchemaUpgradedSetT
  | .mk _ _ _ _ _ _ c _ => c

def UpgradeAnalysisT.columnUpgradesOf : UpgradeAnalysisT → Option SchemaUpgradedSetT
  | .mk _ _ _ _ _ _ _ c => c

def SchemaUpgradedSetT.errors : SchemaUpgradedSetT → List Problem
  | .mk e _ _ _ => e

def SchemaUpgradedSetT.warnings : SchemaUpgradedSetT → List Problem
  | .mk _ w _ _ => w

def SchemaUpgradedSetT.upgrades : SchemaUpgradedSetT → List UpgradeAnalysisT
  | .mk _ _ u _ => u

def SchemaUpgradedSetT.standAloneChanges : SchemaUpgradedSetT → List PChange
  | .mk _ _ _ s => s

/-- `UpgradeAnalysis.order`: the after order, else the before order (the
fallback default is unreachable because the constructor asserts that one
side is present). -/
def UpgradeAnalysisT.orderOf : UpgradeAnalysisT → POrder
  | .mk _ before after _ _ _ _ _ =>
    match after with
    | some it => it.order
    | none =>
      match before with
      | some b => b.order
      | none => ⟨0, 0, 0, [], [], 0⟩

/-- Append to the list held under an existing key (`ret[ct].append(c)`);
`_categorize_changes` pre-seeds every change type, so the key is always
present and the empty case is unreachable. -/
def dictAppendAt [DecidableEq α] : List (α × List β) → α → β → List (α × List β)
  | [], _, _ => []
  | (k, l) :: rest, key, v =>
    if k = key then (k, l ++ [v]) :: rest else (k, l) :: dictAppendAt rest key v

/-- `_categorize_changes`: a dict seeded with an empty bucket per change
type, each change appended to its bucket. -/
def categorizeChanges (changes : List PChange) : List (ChangeType × List PChange) :=
  changes.foldl (fun ret c => dictAppendAt ret c.changeType c)
    (CHANGE_TYPES_L.map (fun ct => (ct, [])))

def catGet (d : List (ChangeType × List PChange)) (ct : ChangeType) : List PChange :=
  (dictFind d ct).getD []

def ctName : ChangeType → String
  | .add => "add"
  | .remove => "remove"
  | .rename => "rename"
  | .alter => "alter"
  | .sql => "sql"

/-- The per-category error text; the source interpolates `str(cat)`, the
default object repr of the `ChangeType` instance, for which the plain name
stands in here. -/
def atMostOneMsg (ct : ChangeType) : String :=
  "at most 1 " ++ ctName ct ++ " is allowed"

def comboChangeMsg : String :=
  "at most 1 of an add, remove, or rename is allowed, and it cannot be done with an alter or sql change"

/-- The `TypeError` CPython raises when the source tries to build an
exception or problem message by concatenating a string with a
`SchemaObjectType` object (the `+ object_type` expressions in
`_create_upgrade_schema` and the table/view mismatch branches). -/
def strConcatTypeErrMsg : String := "can only concatenate str to str"

abbrev SetFn := List SObj → List AfterItem → Except PyErr SchemaUpgradedSetT
abbrev CreateFn := Option SObj → Option AfterItem → Except PyErr (Option UpgradeAnalysisT)

/-- `UpgradeAnalysis.__init__` (lines 49-119): validate the argument shape,
record the implicit-removal warning, collect the authored changes of the
after side, build the nested constraint diff, categorize, and run the
change-count and no-previous-object validations.  Returns the errors,
warnings, categorized changes and constraint diff of the new analysis. -/
def uaInitCore (set : SetFn) (before : Option SObj) (after : Option AfterItem) :
    Except PyErr
      (List Problem × List Problem × List (ChangeType × List PChange) ×
        SchemaUpgradedSetT) := do
  match after with
  | some (.chg c) =>
    if c.changeType = ChangeType.remove then pure ()
    else throw (.assertionError "after change must be a remove change")
  | _ => pure ()
  if before.isNone && after.isNone then
    throw (.assertionError "before and after must not both be None")
  let warnings : List Problem :=
    match after with
    | none => [⟨before.map .obj, "implicit removal of object"⟩]
    | some _ => []
  let changes : List PChange :=
    match after with
    | none => []
    | some (.chg c) => [c]
    | some (.obj o) => o.changes
  let constraintChanges ←
    match after with
    | none | some (.chg _) =>
      match before with
      | some b => set b.constraints []
      | none => throw (.attributeError "NoneType has no attribute constraints")
    | some (.obj o) =>
      match before with
      | none => set [] (o.constraints.map .obj)
      | some b => set b.constraints (o.constraints.map .obj)
  let catChanges := categorizeChanges changes
  let addN := (catGet catChanges .add).length
  let remN := (catGet catChanges .remove).length
  let renN := (catGet catChanges .rename).length
  let perCatErrs : List Problem :=
    (if addN > 1 then [⟨after, atMostOneMsg .add⟩] else []) ++
    (if remN > 1 then [⟨after, atMostOneMsg .remove⟩] else []) ++
    (if renN > 1 then [⟨after, atMostOneMsg .rename⟩] else [])
  let big := addN + remN + renN
  let altN := (catGet catChanges .alter).length
  let sqlN := (catGet catChanges .sql).length
  let comboErrs : List Problem :=
    if big > 1 || (big > 0 && altN + sqlN > 0) then [⟨after, comboChangeMsg⟩] else []
  let (warnings, noPrevErrs) :=
    match before with
    | none =>
      (warnings ++ (if addN ≤ 0 then [⟨after, "implicit add"⟩] else []),
       if remN > 0 || renN > 0 || altN > 0 then
         [⟨after, "can only add due to no previous version found"⟩]
       else [])
    | some _ => (warnings, [])
  pure (perCatErrs ++ comboErrs ++ noPrevErrs, warnings, catChanges, constraintChanges)

/-- `ColumnarUpgradeAnalysis.__init__`: the base init, the columnar shape
asserts, and, when both sides are present and the after side is columnar,
the nested column diff over the after columns extended with the
column-scoped changes, with its problems copied up. -/
def columnarInit (set : SetFn) (before : Option SObj) (after : Option AfterItem) :
    Except PyErr
      (List Problem × List Problem × List (ChangeType × List PChange) ×
        SchemaUpgradedSetT × Option SchemaUpgradedSetT) := do
  let (errs, warns, cat, cons) ← uaInitCore set before after
  match before with
  | none | some (.table ..) | some (.view ..) => pure ()
  | some _ => throw (.assertionError "before must be a columnar schema object")
  match after with
  | none | some (.chg (.schemaChange ..)) | some (.obj (.table ..))
  | some (.obj (.view ..)) => pure ()
  | some _ =>
    throw (.assertionError "after must be a schema change or columnar object")
  match before, after with
  | some b, some (.obj o) =>
    match o with
    | .table .. | .view .. =>
      let afterSet := o.columns.map AfterItem.obj ++
        (o.changes.filter (fun c => decide (c.objectType = SType.column))).map AfterItem.chg
      let cu ← set b.columns afterSet
      let errs := errs ++ cu.errors
      let warns := warns ++ cu.warnings
      -- _check_column_problems: non-sql stand-alone column changes are
      -- invalid, and every nested problem is pushed up once more
      let errs := errs ++ cu.standAloneChanges.filterMap (fun c =>
        match c with
        | .sqlChange .. => none
        | _ => some ⟨some (.chg c), "invalid columnar change"⟩)
      let errs := cu.upgrades.foldl (fun e u => e ++ u.errorsOf) errs
      let warns := cu.upgrades.foldl (fun w u => w ++ u.warningsOf) warns
      pure (errs, warns, cat, cons, some cu)
    | _ => pure (errs, warns, cat, cons, none)
  | _, _ => pure (errs, warns, cat, cons, none)

/-- `TableUpgradeAnalysis.__init__`.  When the before object is not a
table, the source tries to build the error message
`'cannot upgrade directly from a ' + before.object_type + ...`, which
raises `TypeError` (str plus `SchemaObjectType`). -/
def tableUABody (set : SetFn) (before : Option SObj) (after : Option AfterItem) :
    Except PyErr UpgradeAnalysisT := do
  let (errs, warns, cat, cons, colUps) ← columnarInit set before after
  match before with
  | some b =>
    if b.objectType = SType.table then
      pure (.mk .table before after errs warns cat cons colUps)
    else throw (.typeError strConcatTypeErrMsg)
  | none => pure (.mk .table before after errs warns cat cons colUps)

/-- `ViewUpgradeAnalysis.__init__` (mirror of the table case). -/
def viewUABody (set : SetFn) (before : Option SObj) (after : Option AfterItem) :
    Except PyErr UpgradeAnalysisT := do
  let (errs, warns, cat, cons, colUps) ← columnarInit set before after
  match before with
  | some b =>
    if b.objectType = SType.view then
      pure (.mk .view before after errs warns cat cons colUps)
    else throw (.typeError strConcatTypeErrMsg)
  | none => pure (.mk .view before after errs warns cat cons colUps)

/-- `ColumnUpgradeAnalysis.__init__`; the trailing
`if after is SchemaChange or after is None:` branch only contains `pass`. -/
def columnUABody (set : SetFn) (before : Option SObj) (after : Option AfterItem) :
    Except PyErr UpgradeAnalysisT := do
  let (errs, warns, cat, cons) ← uaInitCore set before after
  match before with
  | none | some (.column ..) => pure ()
  | some _ => throw (.assertionError "before must be a column")
  match after with
  | none | some (.obj (.column ..)) | some (.chg (.schemaChange ..)) => pure ()
  | some _ => throw (.assertionError "after must be a column or schema change")
  pure (.mk .column before after errs warns cat cons none)

/-- `SchemaUpgradedSet._create_upgrade_schema`: dispatch on the present
side.  An unrecognized kind tries to concatenate the object type into the
failure message, raising `TypeError`; when both sides are present the
`else` branch is the `# FIXME`/`pass` stub and the method returns `None`. -/
def createUpgradeBody (tableUA viewUA columnUA :
      Option SObj → Option AfterItem → Except PyErr UpgradeAnalysisT)
    (before : Option SObj) (after : Option AfterItem) :
    Except PyErr (Option UpgradeAnalysisT) :=
  match before with
  | none =>
    match after with
    | some (.obj o) =>
      match o with
      | .table .. => (tableUA none (some (.obj o))).map some
      | .view .. => (viewUA none (some (.obj o))).map some
      | .column .. => (columnUA none (some (.obj o))).map some
      | .constraint .. => .error (.typeError strConcatTypeErrMsg)
    | _ => .error (.assertionError "after must be a schema object")
  | some b =>
    match after with
    | none =>
      match b with
      | .table .. => (tableUA (some b) none).map some
      | .view .. => (viewUA (some b) none).map some
      | .column .. => (columnUA (some b) none).map some
      | .constraint .. => .error (.typeError strConcatTypeErrMsg)
    | some _ => .ok none

/-- One step of the `for obj in after_set` walk of
`SchemaUpgradedSet.__init__`: remove changes match on their previous name,
other changes become stand-alone, and objects match on the rename previous
name (if a rename change is embedded) or their own full name. -/
def walkAfterItem (create : CreateFn)
    (st : List (String × SObj) × List (Option UpgradeAnalysisT) × List Problem × List PChange)
    (item : AfterItem) :
    Except PyErr
      (List (String × SObj) × List (Option UpgradeAnalysisT) × List Problem × List PChange) := do
  let (names, upgrades, errs, sa) := st
  match item with
  | .chg c =>
    match c with
    | .schemaChange _ _ ct pn =>
      if ct = ChangeType.remove then
        match pn with
        | some pname =>
          match dictFind names pname with
          | some matched => do
            let ua? ← create (some matched) (some (.chg c))
            pure (dictDelete names pname, upgrades ++ [ua?], errs, sa)
          | none =>
            pure (names, upgrades,
              errs ++ [⟨some (.chg c), "remove change has no known previous object"⟩], sa)
        | none =>
          -- a None previous_name is never a key of the before index
          pure (names, upgrades,
            errs ++ [⟨some (.chg c), "remove change has no known previous object"⟩], sa)
      else pure (names, upgrades, errs, sa ++ [c])
    | .sqlChange .. => pure (names, upgrades, errs, sa ++ [c])
  | .obj o =>
    let ct := categorizeChanges o.changes
    let nameKey : Option String :=
      match catGet ct .rename with
      | rc :: _ => rc.previousName
      | [] => some o.fullName
    match nameKey with
    | some nm =>
      match dictFind names nm with
      | some bef => do
        let ua? ← create (some bef) (some (.obj o))
        pure (dictDelete names nm, upgrades ++ [ua?], errs, sa)
      | none => do
        let ua? ← create none (some (.obj o))
        pure (names, upgrades ++ [ua?], errs, sa)
    | none => do
      -- a rename change without a previous name also fails the lookup
      let ua? ← create none (some (.obj o))
      pure (names, upgrades ++ [ua?], errs, sa)

/-- `SchemaUpgradedSet.__init__`: index the before list by full name
(reporting duplicates; `duplicate_names` is never populated in the source,
so the membership guard on it is always true), walk the after list,
synthesize removals with warnings for the unmatched leftovers, and fold
the problems of the constructed analyses into the set.  The final loop
over stand-alone changes only acts on `UpgradeAnalysis` instances, which
never occur there, and is dropped.  One step of the before-list indexing
loop is split out as `indexBeforeNames`: report duplicates (the source
never appends to `duplicate_names`, so its membership guard is always
true and both the new and the first-seen object gain an error), otherwise
install the object under its full name. -/
def indexBeforeNames (st : List (String × SObj) × List Problem) (obj : SObj) :
    List (String × SObj) × List Problem :=
  match dictFind st.1 obj.fullName with
  | some orig =>
    (st.1, st.2 ++ [⟨some (.obj obj), "duplicate name"⟩,
                    ⟨some (.obj orig), "duplicate name"⟩])
  | none => (dictSet st.1 obj.fullName obj, st.2)

def schemaUpgradedSetBody (create : CreateFn)
    (beforeSet : List SObj) (afterSet : List AfterItem) :
    Except PyErr SchemaUpgradedSetT := do
  let (beforeNames, errs0) := beforeSet.foldl indexBeforeNames ([], [])
  let st ← afterSet.foldlM (walkAfterItem create)
    (beforeNames, ([] : List (Option UpgradeAnalysisT)), errs0, ([] : List PChange))
  let (names, upgrades, errs, standalone) := st
  let st3 ← (dictValues names).foldlM
    (fun (st : List (Option UpgradeAnalysisT) × List Problem) bef => do
      let ua? ← create (some bef) none
      pure (st.1 ++ [ua?],
        st.2 ++ [⟨some (.obj bef), "no explicit removal for " ++ bef.name⟩]))
    (upgrades, ([] : List Problem))
  let (upgrades, warns) := st3
  let (finalUps, errs, warns) := upgrades.foldl
    (fun (st : List UpgradeAnalysisT × List Problem × List Problem) u? =>
      match u? with
      | some u => (st.1 ++ [u], st.2.1 ++ u.errorsOf, st.2.2 ++ u.warningsOf)
      | none => st)
    ([], errs, warns)
  pure (.mk errs warns finalUps standalone)

structure EngineFns where
  upgradedSet : SetFn
  createUpgrade : CreateFn

/-- The mutually recursive diff-engine entry points, indexed by fuel: each
level ties `SchemaUpgradedSet.__init__` to `_create_upgrade_schema` of the
level below and the analysis constructors to the set constructor of the
level below, mirroring the recursion
set → create → Table/View/ColumnUpgradeAnalysis → nested set. -/
def engineF : Nat → EngineFns
  | 0 =>
    { upgradedSet := fun _ _ => .error .recursionError,
      createUpgrade := fun _ _ => .error .recursionError }
  | f + 1 =>
    let prev := engineF f
    { upgradedSet := schemaUpgradedSetBody prev.createUpgrade,
      createUpgrade := createUpgradeBody
        (tableUABody prev.upgradedSet)
        (viewUABody prev.upgradedSet)
        (columnUABody prev.upgradedSet) }

/-- `SchemaUpgradedSet(before, after)` with a given recursion budget. -/
def schemaUpgradedSet (fuel : Nat) : SetFn := (engineF fuel).upgradedSet

/-- `SchemaUpgradedSet._create_upgrade_schema(before, after)` with a given
recursion budget. -/
def createUpgradeSchema (fuel : Nat) : CreateFn := (engineF fuel).createUpgrade

/-- Short-circuiting `for upg in upgrades: if upg.has_changes(): return True`. -/
def setHasChangesGo (uaHC : UpgradeAnalysisT → Except PyErr Bool) :
    List UpgradeAnalysisT → Except PyErr Bool
  | [] => pure false
  | u :: rest => do
    let b ← uaHC u
    if b then pure true else setHasChangesGo uaHC rest

/-- `has_changes` of `UpgradeAnalysis` (first component) and of
`SchemaUpgradedSet` (second component), indexed by fuel.  The base method
computes `constraint_changes.has_changes() > 0 or len(self.__changes) > 0`
where `self.__changes` is the categorized-changes dict (its `len` is its
key count); `ColumnarUpgradeAnalysis` additionally consults the column
diff, whose `None` case would be an `AttributeError`. -/
def hasChangesF : Nat →
    (UpgradeAnalysisT → Except PyErr Bool) × (SchemaUpgradedSetT → Except PyErr Bool)
  | 0 => (fun _ => .error .recursionError, fun _ => .error .recursionError)
  | f + 1 =>
    let prev := hasChangesF f
    ( fun u =>
        match u with
        | .mk kind _ _ _ _ cat cons colUps => do
          let c ← prev.2 cons
          let base := c || cat.length > 0
          match kind with
          | .column => pure base
          | .table | .view =>
            if base then pure true
            else
              match colUps with
              | some s => prev.2 s
              | none => throw (.attributeError "NoneType has no attribute has_changes")
      , fun s =>
        match s with
        | .mk _ _ ups sa =>
          if sa.length > 0 then pure true
          else setHasChangesGo prev.1 ups )

def uaHasChanges (fuel : Nat) : UpgradeAnalysisT → Except PyErr Bool :=
  (hasChangesF fuel).1

def usetHasChanges (fuel : Nat) : SchemaUpgradedSetT → Except PyErr Bool :=
  (hasChangesF fuel).2

/-- An element of `SchemaUpgradedSet.all_upgrades`. -/
inductive UpgradeItem where
  | ua (u : UpgradeAnalysisT)
  | chg (c : PChange)

def UpgradeItem.orderOf : UpgradeItem → POrder
  | .ua u => u.orderOf
  | .chg c => c.order

/-- `all_upgrades`: the stand-alone changes followed by the analyses,
stably sorted ascending by each element's order. -/
def usetAllUpgrades (s : SchemaUpgradedSetT) : List UpgradeItem :=
  pySortBy (fun a b => decide (ordSub a.orderOf b.orderOf ≤ 0))
    (s.standAloneChanges.map .chg ++ s.upgrades.map .ua)

/-! ### Versions, branches and packages (model/version.py) -/

/-- `SchemaVersionNumber.__sub__`: walk the components of the left tuple;
if the right tuple runs out first the result is `-1`, a mismatch returns
the component difference, and when the left tuple runs out the result is
the depth difference. -/
def svnSub : List Int → List Int → Int
  | [], ys => -(ys.length : Int)
  | _ :: _, [] => -1
  | x :: xs, y :: ys => if x - y ≠ 0 then x - y else svnSub xs ys

def svnLt (a b : List Int) : Bool := svnSub a b < 0

def svnLe (a b : List Int) : Bool := svnSub a b ≤ 0

def svnGt (a b : List Int) : Bool := svnSub a b > 0

def svnGe (a b : List Int) : Bool := svnSub a b ≥ 0

/-- Post-constructor state of a `SchemaVersion`: the constructor stores
`sorted(schema)` and `sorted(top_changes)` (stable, ascending by order);
parse problems are not read by the claims modelled here and are omitted. -/
structure PSchemaVersion where
  package : String
  version : List Int
  topChanges : List PChange
  schema : List SObj

/-- The `SchemaVersion` constructor sorting. -/
def mkSchemaVersion (package : String) (version : List Int)
    (topChanges : List PChange) (schema : List SObj) : PSchemaVersion :=
  { package := package, version := version,
    topChanges := pySortBy (fun a b => decide (ordSub a.order b.order ≤ 0)) topChanges,
    schema := pySortBy (fun a b => decide (ordSub a.order b.order ≤ 0)) schema }

/-- Post-constructor state of a `SchemaBranch` inside a package: payload or
lazy loader (modelled as an opaque id), parent version and accumulated
children. -/
structure PBranchRec where
  package : String
  branch : Option PSchemaVersion
  loaderId : Option Nat
  version : List Int
  parentVer : Option (List Int)
  childrenVers : List (List Int)

/-- Mutable state of a `SchemaPackage`. -/
structure PkgSt where
  package : String
  versionMap : List (List Int × PBranchRec)
  firstBranches : List (List Int)
  unresolvedLoaded : List (List Int × PSchemaVersion)
  unresolvedLazy : List (List Int × Nat × List Int)

def emptyPkg (package : String) : PkgSt := ⟨package, [], [], [], []⟩

/-- `SchemaPackage.__contains__`: version membership in the version map;
any non-version value (here `None`) is not contained. -/
def pkgContains (st : PkgSt) : Option (List Int) → Bool
  | none => false
  | some v => (dictFind st.versionMap v).isSome

/-- `SchemaBranch.__init__` appending the new branch to
`parent._children`. -/
def pkgAppendChild (st : PkgSt) (pv : List Int) (childV : List Int) : PkgSt :=
  { st with versionMap := st.versionMap.map (fun kv =>
      if kv.1 = pv then (kv.1, { kv.2 with childrenVers := kv.2.childrenVers ++ [childV] })
      else kv) }

/-- `SchemaPackage.unresolved_branch_versions`: note the source appends
`branch.version` — the version of the *deferred child* — for loaded
entries, and the lazy entry's own version, never the awaited parent. -/
def unresolvedBranchVersions (st : PkgSt) : List (List Int) :=
  st.unresolvedLoaded.map (fun pb => pb.2.version) ++
    st.unresolvedLazy.map (fun plv => plv.2.2)

/-- `list.remove(x)` with an explicit equality test standing in for the
identity comparison of the default `__eq__` (entries are identified by
their version numbers, which are unique within a package). -/
def listRemoveFirstBy (eq : α → α → Bool) : List α → α → Except PyErr (List α)
  | [], _ => .error (.valueError "list.remove(x): x not in list")
  | y :: ys, x =>
    if eq y x then .ok ys
    else (listRemoveFirstBy eq ys x).map (y :: ·)

/-- The tail of `add_branch_version` once deferral is ruled out: append
the child to the resolved parent, install the new branch record, rescan
the deferred entries and record parentless branches as first branches. -/
def addVersionTail (resolve : PkgSt → Except PyErr PkgSt)
    (st : PkgSt) (branch : PSchemaVersion) (parent : Option (List Int)) :
    Except PyErr PkgSt := do
  let st :=
    match parent with
    | some pv => pkgAppendChild st pv branch.version
    | none => st
  let rec0 : PBranchRec :=
    { package := st.package, branch := some branch, loaderId := none,
      version := branch.version, parentVer := parent, childrenVers := [] }
  let st := { st with versionMap := dictSet st.versionMap branch.version rec0 }
  let st ← resolve st
  if parent.isNone then
    pure { st with firstBranches := st.firstBranches ++ [branch.version] }
  else pure st

/-- `SchemaPackage.add_branch_version`.  The guard is
`if parent is not None or parent not in self:` — an `or`, unlike the `and`
of `add_branch_loader` — so a `None` parent enters the block and fails the
`isinstance(parent, SchemaVersionNumber)` assertion. -/
def addVersionBody (resolve : PkgSt → Except PyErr PkgSt)
    (st : PkgSt) (branch : PSchemaVersion) (parent : Option (List Int)) :
    Except PyErr PkgSt := do
  if branch.package ≠ st.package then
    throw (.assertionError "tried to add a branch to a different group")
  if pkgContains st (some branch.version) then
    throw (.assertionError "Already added branch")
  if parent.isSome || !(pkgContains st parent) then
    match parent with
    | none =>
      throw (.assertionError "SchemaBranch objects should be created by the SchemaPackage")
    | some pv => do
      let st ← resolve st
      if !(pkgContains st (some pv)) then
        pure { st with unresolvedLoaded := st.unresolvedLoaded ++ [(pv, branch)] }
      else
        addVersionTail resolve st branch parent
  else
    addVersionTail resolve st branch parent

/-- The tail of `add_branch_loader` (mirror of `addVersionTail`). -/
def addLoaderTail (resolve : PkgSt → Except PyErr PkgSt)
    (st : PkgSt) (loaderId : Nat) (version : List Int) (parent : Option (List Int)) :
    Except PyErr PkgSt := do
  let st :=
    match parent with
    | some pv => pkgAppendChild st pv version
    | none => st
  let rec0 : PBranchRec :=
    { package := st.package, branch := none, loaderId := some loaderId,
      version := version, parentVer := parent, childrenVers := [] }
  let st := { st with versionMap := dictSet st.versionMap version rec0 }
  let st ← resolve st
  if parent.isNone then
    pure { st with firstBranches := st.firstBranches ++ [version] }
  else pure st

/-- `SchemaPackage.add_branch_loader`; its guard uses
`parent is not None and parent not in self`. -/
def addLoaderBody (resolve : PkgSt → Except PyErr PkgSt)
    (st : PkgSt) (loaderId : Nat) (version : List Int) (parent : Option (List Int)) :
    Except PyErr PkgSt := do
  if pkgContains st (some version) then
    throw (.assertionError "Already added branch")
  match parent with
  | some pv =>
    if !(pkgContains st (some pv)) then do
      let st ← resolve st
      if !(pkgContains st (some pv)) then
        pure { st with unresolvedLazy := st.unresolvedLazy ++ [(pv, loaderId, version)] }
      else
        addLoaderTail resolve st loaderId version parent
    else addLoaderTail resolve st loaderId version parent
  | none => addLoaderTail resolve st loaderId version parent

structure PkgFns where
  addVersion : PkgSt → PSchemaVersion → Option (List Int) → Except PyErr PkgSt
  addLoader : PkgSt → Nat → List Int → Option (List Int) → Except PyErr PkgSt
  resolve : PkgSt → Except PyErr PkgSt
  resolveFrom : Bool → PkgSt → Except PyErr PkgSt
  scanLoaded : Nat → PkgSt → List (List Int × PSchemaVersion) → Bool →
    Except PyErr (PkgSt × List (List Int × PSchemaVersion) × Bool)
  scanLazy : Nat → PkgSt → List (List Int × Nat × List Int) → Bool →
    Except PyErr (PkgSt × List (List Int × Nat × List Int) × Bool)

/-- The mutually recursive `SchemaPackage` registration protocol, indexed
by fuel.  `__resolve_parents` iterates the live deferred lists by index
(CPython list iterators track an index into the possibly-mutated list),
promoting entries whose parent has appeared and then removing them; the
promotions re-enter `add_branch_version`/`add_branch_loader`, which
re-enter the resolver, so every edge of the cycle steps down one level. -/
def pkgF : Nat → PkgFns
  | 0 =>
    { addVersion := fun _ _ _ => .error .recursionError,
      addLoader := fun _ _ _ _ => .error .recursionError,
      resolve := fun _ => .error .recursionError,
      resolveFrom := fun _ _ => .error .recursionError,
      scanLoaded := fun _ _ _ _ => .error .recursionError,
      scanLazy := fun _ _ _ _ => .error .recursionError }
  | f + 1 =>
    let prev := pkgF f
    { addVersion := addVersionBody prev.resolve,
      addLoader := addLoaderBody prev.resolve,
      resolve := fun st => prev.resolveFrom true st,
      resolveFrom := fun search st =>
        if search && (st.unresolvedLoaded.length + st.unresolvedLazy.length > 0) then do
          let (st, removeL, s1) ← prev.scanLoaded 0 st [] false
          let st ← removeL.foldlM
            (fun (cur : PkgSt) item => do
              let l ← listRemoveFirstBy
                (fun a b => a.1 == b.1 && a.2.version == b.2.version)
                cur.unresolvedLoaded item
              pure { cur with unresolvedLoaded := l })
            st
          let (st, removeZ, s2) ← prev.scanLazy 0 st [] s1
          let st ← removeZ.foldlM
            (fun (cur : PkgSt) item => do
              let l ← listRemoveFirstBy
                (fun a b => a.1 == b.1 && a.2.1 == b.2.1 && a.2.2 == b.2.2)
                cur.unresolvedLazy item
              pure { cur with unresolvedLazy := l })
            st
          prev.resolveFrom s2 st
        else pure st,
      scanLoaded := fun i st removeAcc search =>
        match st.unresolvedLoaded.drop i with
        | [] => pure (st, removeAcc, search)
        | (pv, br) :: _ =>
          if pkgContains st (some pv) then do
            let st ← prev.addVersion st br (some pv)
            prev.scanLoaded (i + 1) st (removeAcc ++ [(pv, br)]) true
          else prev.scanLoaded (i + 1) st removeAcc search,
      scanLazy := fun i st removeAcc search =>
        match st.unresolvedLazy.drop i with
        | [] => pure (st, removeAcc, search)
        | (pv, lid, ver) :: _ =>
          if pkgContains st (some pv) then do
            let st ← prev.addLoader st lid ver (some pv)
            prev.scanLazy (i + 1) st (removeAcc ++ [(pv, lid, ver)]) true
          else prev.scanLazy (i + 1) st removeAcc search }

/-- `SchemaPackage.add_branch_version` with a given recursion budget. -/
def addBranchVersion (fuel : Nat) : PkgSt → PSchemaVersion → Option (List Int) →
    Except PyErr PkgSt := (pkgF fuel).addVersion

/-- `SchemaPackage.add_branch_loader` with a given recursion budget. -/
def addBranchLoader (fuel : Nat) : PkgSt → Nat → List Int → Option (List Int) →
    Except PyErr PkgSt := (pkgF fuel).addLoader

/-! ### `BranchUpgradeAnalysis` (schemagen/upgrade.py) -/

/-- A `SchemaBranch` as seen by `BranchUpgradeAnalysis`: the payloads are
modelled as already resolved (the lazy `schema_version` property memoizes
the loader result on first access). -/
structure PSchemaBranch where
  package : String
  schemaVersion : PSchemaVersion
  parentPayload : Option PSchemaVersion

structure BranchUpgradeAnalysisT where
  schemaVersion : PSchemaVersion
  parentVersion : Option PSchemaVersion
  upgradeSet : Option SchemaUpgradedSetT

/-- `BranchUpgradeAnalysis.__init__`: with no parent nothing is computed;
with a parent, both payloads are resolved and a single
`SchemaUpgradedSet(parent.schema, top_changes + schema)` is built. -/
def branchUpgradeAnalysis (fuel : Nat) (branch : PSchemaBranch) :
    Except PyErr BranchUpgradeAnalysisT :=
  match branch.parentPayload with
  | none => .ok ⟨branch.schemaVersion, none, none⟩
  | some pv => do
    let allNew := branch.schemaVersion.topChanges.map AfterItem.chg ++
      branch.schemaVersion.schema.map AfterItem.obj
    let us ← schemaUpgradedSet fuel pv.schema allNew
    pure ⟨branch.schemaVersion, some pv, some us⟩

/-- `BranchUpgradeAnalysis.is_upgrade`. -/
def BranchUpgradeAnalysisT.isUpgrade (b : BranchUpgradeAnalysisT) : Bool :=
  b.upgradeSet.isSome

/-- `BranchUpgradeAnalysis.changes`. -/
def BranchUpgradeAnalysisT.changes (b : BranchUpgradeAnalysisT) : List UpgradeItem :=
  match b.upgradeSet with
  | none => []
  | some s => usetAllUpgrades s

/-! ### Constructor call protocol (for the `Order` arity claims) -/

/-- A Python value passed positionally to `Order.__init__`. -/
inductive PyArg where
  | intList (l : List Int)
  | strList (l : List String)
  | noneArg
  | otherArg
deriving DecidableEq, Repr

def orderArityMsg : String :=
  "Order.__init__ missing required positional arguments"

/-- `_clean_order_list` applied to a raw argument. -/
def cleanArgList : PyArg → Except PyErr (List String)
  | .noneArg => .ok []
  | .strList l => .ok (cleanOrderList (some l))
  | .intList _ => .error (.assertionError "order list values must be str")
  | .otherArg => .error (.typeError "argument is not iterable")

/-- A call `Order(*args)`: the signature `__init__(self, order, before,
after)` declares three required parameters with no defaults, so any other
arity raises `TypeError` before the body runs; the body then validates the
triple and cleans the label lists. -/
def orderNew (args : List PyArg) : Except PyErr POrder :=
  match args with
  | [o, b, a] =>
    match o with
    | .intList [x, y, z] => do
      let bl ← cleanArgList b
      let al ← cleanArgList a
      .ok ⟨x, y, z, bl, al, 0⟩
    | .intList _ => .error (.pyException "order must be of length 3")
    | _ => .error (.pyException "order must be list(int)")
  | _ => .error (.typeError orderArityMsg)

structure ErrObjT where
  order : POrder
  comment : String
  sourceName : String
  sourcePos : Option String

/-- `ErrorObject.__init__` (model/version.py): its first statement is
`order = Order([0, 0, 0])`, a one-argument call of the three-argument
constructor, evaluated before anything else. -/
def errorObjectInit (source : Option POrder) (comment : String)
    (sourceName : String) (sourcePos : Option String)
    (sourceLine : Option Int) (sourceCol : Option Int) :
    Except PyErr ErrObjT := do
  let order0 ← orderNew [.intList [0, 0, 0]]
  let order := source.getD order0
  let pos : Option String ←
    if sourcePos.isSome && (sourcePos.getD "").length > 0 then do
      if sourceLine.isSome || sourceCol.isSome then
        throw (.assertionError "positional source info must not be duplicated")
      pure sourcePos
    else
      match sourceLine with
      | some ln =>
        pure (some ("line " ++ toString ln ++
          (match sourceCol with
           | some c => ", column " ++ toString c
           | none => "")))
      | none => pure none
  pure ⟨order, comment, sourceName, pos⟩

/-- `SchemaObject.__init__` (model/schema.py): an order argument that is
not already an `Order` instance is passed to the one-argument call
`Order(order)`; the remaining body normalizes the change list and the
full name (`full_name or name`). -/
def schemaObjectInit (name : String) (orderArg : POrder ⊕ PyArg)
    (objectType : SType) (changes : Option (List PChange))
    (fullName : Option String) :
    Except PyErr (POrder × String × String × SType × List PChange) := do
  let order ← match orderArg with
    | .inl o => pure o
    | .inr raw => orderNew [raw]
  let changesL := changes.getD []
  let fn :=
    match fullName with
    | some f => if f = "" then name else f
    | none => name
  pure (order, name, fn, objectType, changesL)

/-! ### Concrete instances used by the claims -/

def ordA : POrder := ⟨0, 0, 0, [], [], 0⟩
def ordB : POrder := ⟨0, 0, 1, [], [], 1⟩
def ordC : POrder := ⟨0, 0, 2, [], [], 2⟩

/-- `Table(catalog=None, schema=None, name="old")` with no columns,
constraints or changes; its full name is `..old`. -/
def oldTable : SObj := .table ordA none none "old" [] [] []

/-- A rename change naming the full name of `oldTable` as its previous
name. -/
def renameToNew : PChange := .schemaChange ordC .table .rename (some "..old")

/-- `Table "new"` carrying the rename change. -/
def newTable : SObj := .table ordB none none "new" [] [] [renameToNew]

/-- A change-free table with no columns and no constraints. -/
def emptyTable : SObj := .table ordA none none "t" [] [] []

def aConstraint : SObj := .constraint ordB "notnull" []

/-- A table whose constraint list holds one `Constraint`. -/
def tableWithConstraint : SObj := .table ordA none none "t" [] [aConstraint] []

/-- The C-order of the spec example: natural key `(0,0,0)` and
`occurs_after=["D"]`. -/
def orderCnat : POrder := ⟨0, 0, 0, [], ["D"], 0⟩

/-- The D-order of the spec example: natural key `(0,0,1)`, no labels. -/
def orderDnat : POrder := ⟨0, 0, 1, [], [], 1⟩

/-- An order declaring `occurs_before=["x"]` and `occurs_after=["x"]`:
a direct two-node dependency cycle through the label `x`. -/
def orderWithCycle : POrder := ⟨0, 0, 0, ["x"], ["x"], 0⟩

def v1Schema : PSchemaVersion := ⟨"pkg", [1], [], []⟩
def v2Schema : PSchemaVersion := ⟨"pkg", [2], [], []⟩

def branchNoParent : PSchemaBranch := ⟨"pkg", v1Schema, none⟩
def branchWithParent : PSchemaBranch := ⟨"pkg", v2Schema, some v1Schema⟩

/-- Unvisited-node count used by the fuel-sufficiency argument for
`full_sort`. -/
def unvisCount (allN : List Node) (vis : VisMap) : Nat :=
  (allN.filter (fun n => (dictFind vis n).isNone)).length

/-- Index of the first occurrence of a node in a list (length when
absent). -/
def idxOfN (n : Node) : List Node → Nat
  | [] => 0
  | x :: r => if x = n then 0 else idxOfN n r + 1

/-- Every dependency-list member is drawn from the given node universe. -/
def DepOK (dep : DepMap) (allN : List Node) : Prop :=
  ∀ k ds, dictFind dep k = some ds → ∀ d ∈ ds, d ∈ allN

/-- The fully-visited marks agree exactly with the emitted list. -/
def BlackOK (vis : VisMap) (out : List Node) : Prop :=
  ∀ n, dictFind vis n = some false ↔ n ∈ out

/-- The emitted list is a topological order: every dependency of an
emitted node was emitted earlier. -/
def TopoOK (dep : DepMap) (out : List Node) : Prop :=
  ∀ a, a ∈ out → ∀ d, depRel dep a d → d ∈ out ∧ idxOfN d out < idxOfN a out

/-- The invariant maintained by the `full_sort` traversal. -/
def MachInv (dep : DepMap) (vis : VisMap) (out : List Node) : Prop :=
  BlackOK vis out ∧ TopoOK dep out ∧ out.Nodup

/-! ## Claim theorems -/

/-- Claim C1 (code evaluation at the failing input): with
`before = [Table "old"]` and `after = [Table "new"]` where "new" carries a
rename change whose previous name is the full name of "old", the after
element is name-matched, but the resulting set contains *no* upgrade at
all — `_create_upgrade_schema` returns `None` for a matched pair (its
both-sides-present branch is the `# FIXME`/`pass` stub) and the `None` is
filtered out — rather than the single matched `UpgradeAnalysis` the claim
describes.  No implicit-add/implicit-remove pair is produced either; the
pair silently vanishes. -/
theorem upgrade_matched_pair_is_dropped :
    (schemaUpgradedSet 50 [oldTable] [.obj newTable]).map
      (fun s => (s.upgrades.length, s.standAloneChanges.length,
                 s.errors.length, s.warnings.length)) = .ok (0, 0, 0, 0) := rfl

/-- Claim C2 (code evaluation at the failing input): registering `v2` with
the not-yet-known parent version `v1` is deferred without rejection, but
`unresolved_branch_versions` then reports `[2]` — the *child's* version —
not the awaited parent `[1]`; and subsequently registering `v1` as a
parentless branch raises `AssertionError`, because `add_branch_version`
guards with `parent is not None or parent not in self` (an `or`, where
`add_branch_loader` uses `and`), so the parentless registration walks into
the `isinstance(parent, SchemaVersionNumber)` assertion.  `v1` therefore
never resolves and no child link is ever created. -/
theorem package_deferred_parent_resolution_broken :
    (addBranchVersion 100 (emptyPkg "pkg") v2Schema (some [1])).map
      unresolvedBranchVersions = .ok [[2]] ∧
    (addBranchVersion 100 (emptyPkg "pkg") v2Schema (some [1])).bind
      (fun st => addBranchVersion 100 st v1Schema none) =
      .error (.assertionError
        "SchemaBranch objects should be created by the SchemaPackage") :=
  ⟨rfl, rfl⟩

/-- Claim C3 (code evaluation at the failing input): an analysis built for
a table that carries no authored changes, whose nested constraint diff is
change-free (it reports `false`) and which has no column diff still
answers `has_changes() = True`: the base method tests
`len(self.__changes) > 0` on the categorized-changes *dict*, whose length
is always its five keys, so `has_changes` never returns `False`, contrary
to the claimed iff. -/
theorem upgrade_has_changes_always_true :
    SObj.changes emptyTable = [] ∧
    (createUpgradeSchema 50 none (some (.obj emptyTable))).map
      (fun u? => u?.map (fun u =>
        (uaHasChanges 50 u, usetHasChanges 50 u.constraintChangesOf))) =
      .ok (some (.ok true, .ok false)) :=
  ⟨rfl, rfl⟩

/-- Claim C4, counterexample: constructing the analysis for the one-sided
(implicit-add) case of a table whose constraint list holds a `Constraint`
does *not* return normally: the nested constraint diff hands the
constraint to `_create_upgrade_schema`, whose dispatch recognizes only
`Table`, `View` and `Column`, and the failure path raises (a `TypeError`,
since the intended message concatenates the `SchemaObjectType` object into
a string). -/
theorem constraint_dispatch_raises_ce :
    createUpgradeSchema 50 none (some (.obj tableWithConstraint)) =
      .error (.typeError strConcatTypeErrMsg) := rfl

/-- Claim C5, counterexample: for the proper-prefix pair `1.2` / `1.2.3`
the claim asserts `shorter < longer` is false (equivalently
`shorter > longer` is true); the code returns a negative difference in
*both* orientations, so `shorter < longer` is true and `shorter > longer`
is false. -/
theorem version_prefix_compare_ce :
    svnLt [1, 2] [1, 2, 3] = true ∧ svnGt [1, 2] [1, 2, 3] = false :=
  ⟨rfl, rfl⟩

/-- Claim C5, amended: when one decimal tuple is a proper prefix of the
other, `__sub__` returns a negative value in both orientations — the
longer tuple compares as earlier than its prefix, *and* the prefix also
compares as earlier than the longer tuple; both `>` comparisons are
false.  The comparison is not antisymmetric on prefix pairs. -/
theorem version_prefix_compare_both_earlier :
    ∀ (xs ys : List Int), ys ≠ [] →
      svnLt (xs ++ ys) xs = true ∧ svnLt xs (xs ++ ys) = true ∧
      svnGt (xs ++ ys) xs = false ∧ svnGt xs (xs ++ ys) = false := by
  intro xs ys hys
  induction xs with
  | nil =>
    cases ys with
    | nil => exact absurd rfl hys
    | cons y t =>
      refine ⟨rfl, ?_, rfl, ?_⟩
      · simp [svnLt, svnSub]
        omega
      · simp [svnGt, svnSub]
        omega
  | cons x xs ih =>
    have ⟨h1, h2, h3, h4⟩ := ih
    refine ⟨?_, ?_, ?_, ?_⟩
    · simpa [svnLt, svnSub] using h1
    · simpa [svnLt, svnSub] using h2
    · simpa [svnGt, svnSub] using h3
    · simpa [svnGt, svnSub] using h4

theorem version_prefix_compare_both_earlier_witness :
    ([3] : List Int) ≠ [] ∧
    (svnLt ([1, 2] ++ [3]) [1, 2] = true ∧ svnLt [1, 2] ([1, 2] ++ [3]) = true ∧
     svnGt ([1, 2] ++ [3]) [1, 2] = false ∧ svnGt [1, 2] ([1, 2] ++ [3]) = false) :=
  ⟨by decide, version_prefix_compare_both_earlier [1, 2] [3] (by decide)⟩

/-- Claim C6, counterexample: with `C = Order((0,0,0), after=["D"])` and
`D = Order((0,0,1))`, `full_sort([C, D])` does *not* place D before C: the
label string `"D"` is an abstract label node with no connection to the
Order object D (orders have no names), so the `occurs_after` constraint
cannot refer to D. -/
theorem full_sort_label_example_ce :
    pyFullSort [orderCnat, orderDnat] ≠ .ok [orderDnat, orderCnat] := by
  have heval : pyFullSort [orderCnat, orderDnat] = .ok [orderCnat, orderDnat] := rfl
  rw [heval]
  intro h
  injection h with h2
  exact absurd h2 (by decide)

/-- Claim C6, amended: `full_sort([C, D])` returns `[C, D]` in natural
order; the label `"D"` only injects a placeholder node, which is emitted
and then filtered out, leaving the natural order untouched. -/
theorem full_sort_label_does_not_match_order :
    pyFullSort [orderCnat, orderDnat] = .ok [orderCnat, orderDnat] := rfl

/-- Claim C8: diffing `before = [Table "old"]` (no columns, constraints or
changes) against an empty after list does not raise and produces exactly
one synthesized removal analysis — before the table, after absent — with
the WARNING "no explicit removal for old" in the set's warnings (followed
by the analysis's own "implicit removal of object" warning). -/
theorem upgraded_set_synthesizes_removal :
    (schemaUpgradedSet 50 [oldTable] []).map (fun s =>
      (s.upgrades.map (fun u => (u.beforeOf, u.afterOf.isNone)),
       s.warnings.map Problem.message, s.errors.length)) =
    .ok ([(some oldTable, true)],
         ["no explicit removal for old", "implicit removal of object"], 0) := rfl

/-- Claim C9: a `BranchUpgradeAnalysis` over a branch with no parent has
`is_upgrade = false` and empty `changes` (no diff is computed); over a
branch with a parent it computes the single
`SchemaUpgradedSet(parent.schema, top_changes ++ schema)` and exposes
`changes` as that set's `all_upgrades`. -/
theorem branch_upgrade_analysis_spec :
    ∀ (fuel : Nat) (br : PSchemaBranch),
    (br.parentPayload = none →
      branchUpgradeAnalysis fuel br = .ok ⟨br.schemaVersion, none, none⟩ ∧
      ∀ r, branchUpgradeAnalysis fuel br = .ok r →
        r.isUpgrade = false ∧ r.changes = []) ∧
    (∀ pv, br.parentPayload = some pv →
      ∀ s, schemaUpgradedSet fuel pv.schema
          (br.schemaVersion.topChanges.map AfterItem.chg ++
            br.schemaVersion.schema.map AfterItem.obj) = .ok s →
        ∃ r, branchUpgradeAnalysis fuel br = .ok r ∧
          r.isUpgrade = true ∧ r.changes = usetAllUpgrades s) := by
  intro fuel br
  constructor
  · intro hnone
    unfold branchUpgradeAnalysis
    rw [hnone]
    refine ⟨rfl, ?_⟩
    intro r hr
    have hr2 := Except.ok.inj hr
    subst hr2
    exact ⟨rfl, rfl⟩
  · intro pv hpv s hs
    refine ⟨⟨br.schemaVersion, some pv, some s⟩, ?_, rfl, ?_⟩
    · simp only [branchUpgradeAnalysis, hpv, hs]
      rfl
    · rfl

theorem branch_upgrade_analysis_spec_witness :
    (branchUpgradeAnalysis 50 branchNoParent = .ok ⟨v1Schema, none, none⟩) ∧
    (∃ r, branchUpgradeAnalysis 50 branchWithParent = .ok r ∧
      r.isUpgrade = true ∧ r.changes = usetAllUpgrades (.mk [] [] [] [])) :=
  ⟨((branch_upgrade_analysis_spec 50 branchNoParent).1 rfl).1,
   (branch_upgrade_analysis_spec 50 branchWithParent).2 v1Schema rfl
     (.mk [] [] [] []) rfl⟩

/-- Claim C10: `Order.__init__` takes three required arguments with no
defaults, so the one-argument fallback calls raise `TypeError` instead of
building a default order: the `Order([0, 0, 0])` call at the top of
`ErrorObject.__init__` makes every `ErrorObject` construction raise
(whatever the other arguments are), and `SchemaObject.__init__` raises
whenever its order argument is not already an `Order` instance (the
`Order(order)` coercion call). -/
theorem order_arity_fallbacks_raise :
    ∀ (raw : PyArg) (name : String) (ot : SType) (chs : Option (List PChange))
      (fn : Option String) (source : Option POrder) (comment sourceName : String)
      (sp : Option String) (sl sc : Option Int),
    orderNew [.intList [0, 0, 0]] = .error (.typeError orderArityMsg) ∧
    schemaObjectInit name (.inr raw) ot chs fn = .error (.typeError orderArityMsg) ∧
    errorObjectInit source comment sourceName sp sl sc =
      .error (.typeError orderArityMsg) := by
  intro raw name ot chs fn source comment sourceName sp sl sc
  exact ⟨rfl, rfl, rfl⟩

lemma dictFind_none_head [DecidableEq α] {x : α × β} {r : List (α × β)} {k : α}
    (h : dictFind (x :: r) k = none) : x.1 ≠ k ∧ dictFind r k = none := by
  by_cases hk : x.1 = k
  · simp [dictFind, hk] at h
  · simp [dictFind, hk] at h
    exact ⟨hk, h⟩

lemma dictSet_eq_append [DecidableEq α] : ∀ {names : List (α × β)} {k : α} {v : β},
    dictFind names k = none → dictSet names k v = names ++ [(k, v)] := by
  intro names
  induction names with
  | nil => intro k v _; rfl
  | cons x r ih =>
    intro k v h
    obtain ⟨hne, hr⟩ := dictFind_none_head h
    simp [dictSet, hne, ih hr]

lemma foldl_indexBeforeNames_head :
    ∀ (l : List SObj) (st : List (String × SObj) × List Problem),
    st.1 ≠ [] → ((l.foldl indexBeforeNames st).1).head? = st.1.head? := by
  intro l
  induction l with
  | nil => intro st _; rfl
  | cons obj rest ih =>
    intro st h
    rw [List.foldl_cons]
    cases hf : dictFind st.1 obj.fullName with
    | some orig =>
      have hstep : indexBeforeNames st obj =
          (st.1, st.2 ++ [⟨some (.obj obj), "duplicate name"⟩,
                          ⟨some (.obj orig), "duplicate name"⟩]) := by
        simp [indexBeforeNames, hf]
      rw [hstep]
      exact ih _ h
    | none =>
      have hstep : indexBeforeNames st obj = (dictSet st.1 obj.fullName obj, st.2) := by
        simp [indexBeforeNames, hf]
      rcases hst : st.1 with _ | ⟨a, t⟩
      · exact absurd hst h
      · rw [hstep, dictSet_eq_append hf, hst]
        rw [ih ((a :: t) ++ [(obj.fullName, obj)], st.2) (by simp)]
        simp

lemma walkAfterItem_obj_err (create : CreateFn) (o : SObj)
    (ups : List (Option UpgradeAnalysisT)) (errs : List Problem) (sa : List PChange)
    (e : PyErr) (hc : create none (some (.obj o)) = .error e) :
    walkAfterItem create ([], ups, errs, sa) (.obj o) = .error e := by
  unfold walkAfterItem
  rcases h : catGet (categorizeChanges o.changes) .rename with _ | ⟨rc, rcs⟩
  · simp [h, dictFind, hc]
  · rcases hpn : rc.previousName with _ | pn
    · simp [h, hpn, hc]
    · simp [h, hpn, dictFind, hc]

lemma setBody_empty_before_head_err (create : CreateFn) (o : SObj)
    (restA : List AfterItem) (e : PyErr)
    (hc : create none (some (.obj o)) = .error e) :
    schemaUpgradedSetBody create [] (.obj o :: restA) = .error e := by
  unfold schemaUpgradedSetBody
  simp [List.foldlM_cons, walkAfterItem_obj_err create o _ _ _ e hc]
  rfl

lemma setBody_leftover_head_err (create : CreateFn) (c : SObj) (rest : List SObj)
    (e : PyErr) (h : create (some c) none = .error e) :
    schemaUpgradedSetBody create (c :: rest) [] = .error e := by
  unfold schemaUpgradedSetBody
  rw [List.foldl_cons]
  have h1 : indexBeforeNames ([], []) c = ([(c.fullName, c)], []) := rfl
  rw [h1]
  have h2 := foldl_indexBeforeNames_head rest ([(c.fullName, c)], []) (by simp)
  rcases hres : rest.foldl indexBeforeNames ([(c.fullName, c)], []) with ⟨names, errsP⟩
  rw [hres] at h2
  rcases hn : names with _ | ⟨⟨k0, v0⟩, tl⟩
  · rw [hn] at h2; simp at h2
  · rw [hn] at h2
    simp at h2
    obtain ⟨hk0, hv0⟩ := h2
    subst hk0; subst hv0
    simp [List.foldlM_cons, dictValues, h]
    rfl

lemma uaInitCore_err_obj (set : SetFn) (o : SObj) (e : PyErr)
    (hs : set [] (o.constraints.map .obj) = .error e) :
    uaInitCore set none (some (.obj o)) = .error e := by
  unfold uaInitCore
  simp [hs]

lemma uaInitCore_err_removal (set : SetFn) (b : SObj) (e : PyErr)
    (hs : set b.constraints [] = .error e) :
    uaInitCore set (some b) none = .error e := by
  unfold uaInitCore
  simp [hs]

lemma columnarInit_err (set : SetFn) (before : Option SObj) (after : Option AfterItem)
    (e : PyErr) (h : uaInitCore set before after = .error e) :
    columnarInit set before after = .error e := by
  unfold columnarInit
  simp [h]
  rfl

lemma tableUABody_err (set : SetFn) (before : Option SObj) (after : Option AfterItem)
    (e : PyErr) (h : columnarInit set before after = .error e) :
    tableUABody set before after = .error e := by
  unfold tableUABody
  simp [h]
  rfl

lemma viewUABody_err (set : SetFn) (before : Option SObj) (after : Option AfterItem)
    (e : PyErr) (h : columnarInit set before after = .error e) :
    viewUABody set before after = .error e := by
  unfold viewUABody
  simp [h]
  rfl

lemma columnUABody_err (set : SetFn) (before : Option SObj) (after : Option AfterItem)
    (e : PyErr) (h : uaInitCore set before after = .error e) :
    columnUABody set before after = .error e := by
  unfold columnUABody
  simp [h]
  rfl

/-- A nested constraint diff whose after side starts with a `Constraint`
(the implicit-add shape) fails on the dispatch of that constraint. -/
lemma engine_set_constraint_head_add_err (fuel : Nat) (co : POrder) (ctStr : String)
    (ccs : List PChange) (rest : List SObj) :
    (engineF (fuel + 2)).upgradedSet []
      (AfterItem.obj (.constraint co ctStr ccs) :: rest.map AfterItem.obj) =
      .error (.typeError strConcatTypeErrMsg) := by
  show schemaUpgradedSetBody ((engineF (fuel + 1)).createUpgrade) [] _ = _
  exact setBody_empty_before_head_err _ _ _ _ rfl

/-- A nested constraint diff whose before side starts with a `Constraint`
(the implicit-removal shape) fails on the dispatch of that leftover
constraint. -/
lemma engine_set_constraint_head_rem_err (fuel : Nat) (co : POrder) (ctStr : String)
    (ccs : List PChange) (rest : List SObj) :
    (engineF (fuel + 2)).upgradedSet (SObj.constraint co ctStr ccs :: rest) [] =
      .error (.typeError strConcatTypeErrMsg) := by
  show schemaUpgradedSetBody ((engineF (fuel + 1)).createUpgrade)
    (SObj.constraint co ctStr ccs :: rest) [] = _
  exact setBody_leftover_head_err _ _ _ _ rfl

/-- Claim C4, amended: the nested constraint diff is always attempted, but
for every one-sided construction — implicit add with the before side
absent, or implicit removal with the after side absent — of a Table, View
or Column whose present side carries a `Constraint` at the head of its
constraint list, the nested `SchemaUpgradedSet` hands that constraint to
`_create_upgrade_schema`, whose dispatch recognizes only Table, View and
Column, and construction raises the hard unrecognized-kind failure
(concretely a `TypeError` from concatenating the `SchemaObjectType` into
the message) instead of returning normally; this holds for every recursion
budget that reaches the dispatch.  All six cases (three kinds, both
orientations) are proved. -/
theorem constraint_diff_one_sided_raises :
    ∀ (fuel : Nat) (o co : POrder) (cat sch : Option String) (nm ctStr : String)
      (cols rest : List SObj) (chs ccs : List PChange),
      createUpgradeSchema (fuel + 3) none
        (some (.obj (.table o cat sch nm cols (.constraint co ctStr ccs :: rest) chs))) =
        .error (.typeError strConcatTypeErrMsg) ∧
      createUpgradeSchema (fuel + 3)
        (some (.table o cat sch nm cols (.constraint co ctStr ccs :: rest) chs)) none =
        .error (.typeError strConcatTypeErrMsg) ∧
      createUpgradeSchema (fuel + 3) none
        (some (.obj (.view o cat sch nm cols (.constraint co ctStr ccs :: rest) chs))) =
        .error (.typeError strConcatTypeErrMsg) ∧
      createUpgradeSchema (fuel + 3)
        (some (.view o cat sch nm cols (.constraint co ctStr ccs :: rest) chs)) none =
        .error (.typeError strConcatTypeErrMsg) ∧
      createUpgradeSchema (fuel + 3) none
        (some (.obj (.column o nm (.constraint co ctStr ccs :: rest) chs))) =
        .error (.typeError strConcatTypeErrMsg) ∧
      createUpgradeSchema (fuel + 3)
        (some (.column o nm (.constraint co ctStr ccs :: rest) chs)) none =
        .error (.typeError strConcatTypeErrMsg) := by
  intro fuel o co cat sch nm ctStr cols rest chs ccs
  have hsetAdd := engine_set_constraint_head_add_err fuel co ctStr ccs rest
  have hsetRem := engine_set_constraint_head_rem_err fuel co ctStr ccs rest
  refine ⟨?_, ?_, ?_, ?_, ?_, ?_⟩
  · show (engineF (fuel + 3)).createUpgrade _ _ = _
    have hred : (engineF (fuel + 3)).createUpgrade none
        (some (.obj (.table o cat sch nm cols (.constraint co ctStr ccs :: rest) chs))) =
        (tableUABody ((engineF (fuel + 2)).upgradedSet) none
          (some (.obj (.table o cat sch nm cols (.constraint co ctStr ccs :: rest) chs)))).map some := rfl
    rw [hred]
    rw [tableUABody_err _ _ _ _ (columnarInit_err _ _ _ _ (uaInitCore_err_obj _ _ _ hsetAdd))]
    rfl
  · show (engineF (fuel + 3)).createUpgrade _ _ = _
    have hred : (engineF (fuel + 3)).createUpgrade
        (some (.table o cat sch nm cols (.constraint co ctStr ccs :: rest) chs)) none =
        (tableUABody ((engineF (fuel + 2)).upgradedSet)
          (some (.table o cat sch nm cols (.constraint co ctStr ccs :: rest) chs)) none).map some := rfl
    rw [hred]
    rw [tableUABody_err _ _ _ _ (columnarInit_err _ _ _ _ (uaInitCore_err_removal _ _ _ hsetRem))]
    rfl
  · show (engineF (fuel + 3)).createUpgrade _ _ = _
    have hred : (engineF (fuel + 3)).createUpgrade none
        (some (.obj (.view o cat sch nm cols (.constraint co ctStr ccs :: rest) chs))) =
        (viewUABody ((engineF (fuel + 2)).upgradedSet) none
          (some (.obj (.view o cat sch nm cols (.constraint co ctStr ccs :: rest) chs)))).map some := rfl
    rw [hred]
    rw [viewUABody_err _ _ _ _ (columnarInit_err _ _ _ _ (uaInitCore_err_obj _ _ _ hsetAdd))]
    rfl
  · show (engineF (fuel + 3)).createUpgrade _ _ = _
    have hred : (engineF (fuel + 3)).createUpgrade
        (some (.view o cat sch nm cols (.constraint co ctStr ccs :: rest) chs)) none =
        (viewUABody ((engineF (fuel + 2)).upgradedSet)
          (some (.view o cat sch nm cols (.constraint co ctStr ccs :: rest) chs)) none).map some := rfl
    rw [hred]
    rw [viewUABody_err _ _ _ _ (columnarInit_err _ _ _ _ (uaInitCore_err_removal _ _ _ hsetRem))]
    rfl
  · show (engineF (fuel + 3)).createUpgrade _ _ = _
    have hred : (engineF (fuel + 3)).createUpgrade none
        (some (.obj (.column o nm (.constraint co ctStr ccs :: rest) chs))) =
        (columnUABody ((engineF (fuel + 2)).upgradedSet) none
          (some (.obj (.column o nm (.constraint co ctStr ccs :: rest) chs)))).map some := rfl
    rw [hred]
    rw [columnUABody_err _ _ _ _ (uaInitCore_err_obj _ _ _ hsetAdd)]
    rfl
  · show (engineF (fuel + 3)).createUpgrade _ _ = _
    have hred : (engineF (fuel + 3)).createUpgrade
        (some (.column o nm (.constraint co ctStr ccs :: rest) chs)) none =
        (columnUABody ((engineF (fuel + 2)).upgradedSet)
          (some (.column o nm (.constraint co ctStr ccs :: rest) chs)) none).map some := rfl
    rw [hred]
    rw [columnUABody_err _ _ _ _ (uaInitCore_err_removal _ _ _ hsetRem)]
    rfl

/-! ### Infrastructure lemmas for the `full_sort` cycle theorem -/

lemma dictFind_dictSet [DecidableEq α] (m : List (α × β)) (k : α) (v : β) (k' : α) :
    dictFind (dictSet m k v) k' = if k = k' then some v else dictFind m k' := by
  induction m with
  | nil => simp [dictSet, dictFind]
  | cons x r ih =>
    by_cases hxk : x.1 = k
    · by_cases hk : k = k' <;> simp [dictSet, dictFind, hxk, hk]
    · by_cases hx : x.1 = k' <;> by_cases hk : k = k' <;>
        simp_all [dictSet, dictFind]

lemma dictFind_mem [DecidableEq α] {m : List (α × β)} {k : α} {v : β}
    (h : dictFind m k = some v) : (k, v) ∈ m := by
  induction m with
  | nil => cases h
  | cons x r ih =>
    by_cases hx : x.1 = k
    · have : (k, v) = x := by
        obtain ⟨x1, x2⟩ := x
        simp at hx
        simp [dictFind, hx] at h
        simp [hx, ← h]
      rw [this]
      exact List.mem_cons_self x r
    · simp [dictFind, hx] at h
      exact List.mem_cons_of_mem x (ih h)

lemma idxOfN_lt_length {n : Node} : ∀ {l : List Node}, n ∈ l → idxOfN n l < l.length := by
  intro l
  induction l with
  | nil => intro h; cases h
  | cons x r ih =>
    intro h
    by_cases hx : x = n
    · simp [idxOfN, hx]
    · have : n ∈ r := by
        cases h with
        | head => exact absurd rfl hx
        | tail _ h2 => exact h2
      simp only [idxOfN, hx, if_false, List.length_cons]
      exact Nat.succ_lt_succ (ih this)

lemma idxOfN_append_mem {n : Node} : ∀ {l : List Node} (l' : List Node), n ∈ l →
    idxOfN n (l ++ l') = idxOfN n l := by
  intro l
  induction l with
  | nil => intro l' h; cases h
  | cons x r ih =>
    intro l' h
    by_cases hx : x = n
    · simp [idxOfN, hx]
    · have : n ∈ r := by
        cases h with
        | head => exact absurd rfl hx
        | tail _ h2 => exact h2
      simp [idxOfN, hx, ih l' this]

lemma idxOfN_append_fresh {n : Node} : ∀ {l : List Node}, n ∉ l →
    idxOfN n (l ++ [n]) = l.length := by
  intro l
  induction l with
  | nil => intro _; simp [idxOfN]
  | cons x r ih =>
    intro h
    have hx : x ≠ n := fun he => h (he ▸ List.mem_cons_self x r)
    have hr : n ∉ r := fun hm => h (List.mem_cons_of_mem x hm)
    simp [idxOfN, hx, ih hr]

lemma filterLen_mono {p q : α → Bool} : ∀ (l : List α),
    (∀ a ∈ l, q a = true → p a = true) →
    (l.filter q).length ≤ (l.filter p).length := by
  intro l
  induction l with
  | nil => intro _; exact Nat.le_refl _
  | cons x r ih =>
    intro h
    have hr := ih (fun a ha => h a (List.mem_cons_of_mem x ha))
    by_cases hq : q x = true
    · have hp := h x (List.mem_cons_self x r) hq
      simp [List.filter, hq, hp]
      exact hr
    · have hq' : q x = false := by revert hq; cases q x <;> simp
      by_cases hp : p x = true
      · simp [List.filter, hq', hp]
        exact Nat.le_succ_of_le hr
      · have hp' : p x = false := by revert hp; cases p x <;> simp
        simp [List.filter, hq', hp']
        exact hr

lemma filterLen_strict {p q : α → Bool} {x : α} : ∀ (l : List α), x ∈ l →
    p x = true → q x = false →
    (∀ a ∈ l, q a = true → p a = true) →
    (l.filter q).length < (l.filter p).length := by
  intro l
  induction l with
  | nil => intro h; cases h
  | cons y r ih =>
    intro hx hpx hqx h
    have hmono := filterLen_mono r (fun a ha => h a (List.mem_cons_of_mem y ha))
    by_cases hy : q y = true
    · have hpy := h y (List.mem_cons_self y r) hy
      have hxr : x ∈ r := by
        cases hx with
        | head => rw [hy] at hqx; cases hqx
        | tail _ h2 => exact h2
      simp [List.filter, hy, hpy]
      exact ih hxr hpx hqx (fun a ha => h a (List.mem_cons_of_mem y ha))
    · have hy' : q y = false := by revert hy; cases q y <;> simp
      by_cases hpy : p y = true
      · simp [List.filter, hy', hpy]
        exact Nat.lt_succ_of_le hmono
      · have hpy' : p y = false := by revert hpy; cases p y <;> simp
        have hxr : x ∈ r := by
          cases hx with
          | head => rw [hpy'] at hpx; cases hpx
          | tail _ h2 => exact h2
        simp [List.filter, hy', hpy']
        exact ih hxr hpx hqx (fun a ha => h a (List.mem_cons_of_mem y ha))

lemma unvisCount_set_fresh {allN : List Node} {vis : VisMap} {x : Node} {b : Bool}
    (hx : x ∈ allN) (hfresh : dictFind vis x = none) :
    unvisCount allN (dictSet vis x b) < unvisCount allN vis := by
  apply filterLen_strict allN hx
  · simp [hfresh]
  · simp [dictFind_dictSet]
  · intro a _ hq
    simp only [dictFind_dictSet] at hq
    by_cases hax : x = a
    · simp [hax] at hq
    · simp [hax] at hq
      simp [hq]

lemma unvisCount_set_existing {allN : List Node} {vis : VisMap} {x : Node} {b b' : Bool}
    (hex : dictFind vis x = some b') :
    unvisCount allN (dictSet vis x b) = unvisCount allN vis := by
  unfold unvisCount
  congr 1
  apply List.filter_congr
  intro a _
  simp only [dictFind_dictSet]
  by_cases hax : x = a
  · subst hax
    simp [hex]
  · simp [hax]

lemma unvisCount_mono_pres {allN : List Node} {vis vis' : VisMap}
    (h : ∀ n b, dictFind vis n = some b → dictFind vis' n = some b) :
    unvisCount allN vis' ≤ unvisCount allN vis := by
  apply filterLen_mono
  intro a _ hq
  cases hfa : dictFind vis a with
  | none => rfl
  | some b =>
    have := h a b hfa
    simp [this] at hq

lemma mem_pyInsertLe {le : α → α → Bool} {a x : α} : ∀ {l : List α},
    a ∈ pyInsertLe le x l ↔ a = x ∨ a ∈ l := by
  intro l
  induction l with
  | nil => simp [pyInsertLe]
  | cons y r ih =>
    by_cases hle : le x y
    · simp [pyInsertLe, hle]
    · simp [pyInsertLe, hle, ih]
      tauto

lemma mem_pySortBy {le : α → α → Bool} {a : α} : ∀ {l : List α},
    a ∈ pySortBy le l ↔ a ∈ l := by
  intro l
  induction l with
  | nil => simp [pySortBy]
  | cons x r ih =>
    simp [pySortBy, mem_pyInsertLe, ih]

lemma mem_foldrConcat {d : Node} : ∀ {l : DepMap} {kv : Node × List Node},
    kv ∈ l → d ∈ kv.2 →
    d ∈ l.foldr (fun (kv : Node × List Node) acc => kv.2 ++ acc) [] := by
  intro l
  induction l with
  | nil => intro kv h; cases h
  | cons x r ih =>
    intro kv h hd
    cases h with
    | head =>
      simp [List.foldr]
      left
      exact hd
    | tail _ h2 =>
      simp only [List.foldr]
      exact List.mem_append.mpr (Or.inr (ih h2 hd))

lemma dictFind_map_sort (dep0 : DepMap) (k : Node) :
    dictFind (dep0.map (fun (kv : Node × List Node) => (kv.1, pySortBy nodeLe kv.2))) k =
      (dictFind dep0 k).map (pySortBy nodeLe) := by
  induction dep0 with
  | nil => rfl
  | cons x r ih =>
    by_cases hx : x.1 = k
    · simp [dictFind, hx]
    · simp [dictFind, hx, ih]

lemma depRel_sorted_iff (dep0 : DepMap) (a b : Node) :
    depRel (dep0.map (fun (kv : Node × List Node) => (kv.1, pySortBy nodeLe kv.2))) a b ↔
      depRel dep0 a b := by
  unfold depRel
  rw [dictFind_map_sort]
  cases h : dictFind dep0 a with
  | none => simp
  | some ds => simp [mem_pySortBy]

lemma addBeforeLabel_inv {o : POrder} {st2 : DepMap × List Node} {name : String}
    (h : KeysIn st2) (_ho : Node.ord o ∈ st2.2) :
    KeysIn (addBeforeLabel o st2 name) ∧
      ∃ ext, (addBeforeLabel o st2 name).2 = st2.2 ++ ext := by
  unfold addBeforeLabel
  cases hf : dictFind st2.1 (.str name) with
  | some ds =>
    refine ⟨?_, [], by simp⟩
    intro k hk
    simp only [dictFind_dictSet] at hk
    by_cases he : (Node.str name) = k
    · subst he
      exact h _ (by simp [hf])
    · simp [he] at hk
      exact h _ hk
  | none =>
    refine ⟨?_, [.str name], rfl⟩
    intro k hk
    simp only [dictFind_dictSet] at hk
    by_cases he : (Node.str name) = k
    · subst he
      simp
    · simp [he] at hk
      exact List.mem_append.mpr (Or.inl (h _ hk))

lemma foldl_addBeforeLabel_inv {o : POrder} : ∀ (names : List String)
    (st2 : DepMap × List Node), KeysIn st2 → Node.ord o ∈ st2.2 →
    KeysIn (names.foldl (addBeforeLabel o) st2) ∧
      ∃ ext, (names.foldl (addBeforeLabel o) st2).2 = st2.2 ++ ext := by
  intro names
  induction names with
  | nil => intro st2 h _; exact ⟨h, [], by simp⟩
  | cons nm rest ih =>
    intro st2 h ho
    rw [List.foldl_cons]
    obtain ⟨h1, ext1, he1⟩ := @addBeforeLabel_inv o st2 nm h ho
    have ho1 : Node.ord o ∈ (addBeforeLabel o st2 nm).2 := by
      rw [he1]; exact List.mem_append.mpr (Or.inl ho)
    obtain ⟨h2, ext2, he2⟩ := ih _ h1 ho1
    refine ⟨h2, ext1 ++ ext2, ?_⟩
    rw [he2, he1, List.append_assoc]

lemma addOrderDeps_inv {st : DepMap × List Node} {o : POrder}
    (h : KeysIn st) (ho : Node.ord o ∈ st.2) :
    KeysIn (addOrderDeps st o) ∧ ∃ ext, (addOrderDeps st o).2 = st.2 ++ ext := by
  unfold addOrderDeps
  have h0 : KeysIn (dictSet st.1 (.ord o) (o.afterLabels.map Node.str), st.2) := by
    intro k hk
    simp only [dictFind_dictSet] at hk
    by_cases he : (Node.ord o) = k
    · subst he; exact ho
    · simp [he] at hk
      exact h _ hk
  exact foldl_addBeforeLabel_inv o.beforeLabels _ h0 ho

lemma buildDepends_keysIn (orders : List POrder) : KeysIn (buildDepends orders) := by
  unfold buildDepends
  have main : ∀ (l : List POrder) (st : DepMap × List Node),
      KeysIn st → (∀ o ∈ l, Node.ord o ∈ st.2) →
      KeysIn (l.foldl addOrderDeps st) := by
    intro l
    induction l with
    | nil => intro st h _; exact h
    | cons o rest ih =>
      intro st h hall
      rw [List.foldl_cons]
      obtain ⟨h1, ext1, he1⟩ := addOrderDeps_inv h (hall o (List.mem_cons_self o rest))
      apply ih _ h1
      intro o' ho'
      rw [he1]
      exact List.mem_append.mpr (Or.inl (hall o' (List.mem_cons_of_mem o ho')))
  apply main
  · intro k hk
    simp [dictFind] at hk
  · intro o ho
    exact List.mem_map.mpr ⟨o, ho, rfl⟩

lemma depRel_of_find {dep : DepMap} {v : Node} {ds : List Node}
    (h : dictFind dep v = some ds) : ∀ d, depRel dep v d ↔ d ∈ ds := by
  intro d
  unfold depRel
  rw [h]

lemma depRel_of_find_none {dep : DepMap} {v : Node}
    (h : dictFind dep v = none) : ∀ d, ¬ depRel dep v d := by
  intro d
  unfold depRel
  rw [h]
  exact id

lemma gray_inv {dep : DepMap} {vis : VisMap} {out : List Node} {v : Node}
    (hinv : MachInv dep vis out) (hfresh : dictFind vis v = none) :
    MachInv dep (dictSet vis v true) out := by
  obtain ⟨hB, hT, hN⟩ := hinv
  refine ⟨?_, hT, hN⟩
  intro n
  by_cases hn : v = n
  · subst hn
    simp [dictFind_dictSet]
    intro hm
    have := (hB v).mpr hm
    rw [hfresh] at this
    cases this
  · rw [dictFind_dictSet, if_neg hn]
    exact hB n

lemma blacken_inv {dep : DepMap} {vis2 : VisMap} {out2 : List Node} {v : Node}
    (hinv2 : MachInv dep vis2 out2)
    (hgray : dictFind vis2 v = some true)
    (hdeps : ∀ d, depRel dep v d → dictFind vis2 d = some false) :
    MachInv dep (dictSet vis2 v false) (out2 ++ [v]) ∧ v ∉ out2 := by
  obtain ⟨hB, hT, hN⟩ := hinv2
  have hvout : v ∉ out2 := by
    intro hm
    have := (hB v).mpr hm
    rw [hgray] at this
    cases this
  refine ⟨⟨?_, ?_, ?_⟩, hvout⟩
  · intro n
    by_cases hn : v = n
    · subst hn
      simp [dictFind_dictSet]
    · rw [dictFind_dictSet, if_neg hn]
      rw [hB n]
      simp
      intro he
      exact absurd he.symm hn
  · intro a ha d hd
    rcases List.mem_append.mp ha with haL | haR
    · obtain ⟨hdin, hidx⟩ := hT a haL d hd
      refine ⟨List.mem_append.mpr (Or.inl hdin), ?_⟩
      rw [idxOfN_append_mem _ hdin, idxOfN_append_mem _ haL]
      exact hidx
    · have hav : a = v := List.mem_singleton.mp haR
      subst hav
      have hdblack := hdeps d hd
      have hdin : d ∈ out2 := (hB d).mp hdblack
      refine ⟨List.mem_append.mpr (Or.inl hdin), ?_⟩
      rw [idxOfN_append_mem _ hdin, idxOfN_append_fresh hvout]
      exact idxOfN_lt_length hdin
  · refine hN.append (List.nodup_singleton v) ?_
    intro a ha hav
    rw [List.mem_singleton] at hav
    subst hav
    exact hvout ha

/-- The joint specification of `tsortVisit` and its dependency loop: under
the traversal invariant, a run either raises the cyclic-dependency failure
or succeeds with the stack restored, the output extended to a larger
topological order, every previously colored node keeping its color, the
visited node (resp. every listed dependency) fully visited, and the
unvisited count reduced. -/
lemma tsortSpec (allN : List Node) : ∀ f : Nat,
    (∀ (v : Node) (dep : DepMap) (vis : VisMap) (stk out : List Node),
      DepOK dep allN → v ∈ allN → dictFind vis v = none →
      1 + unvisCount allN vis ≤ f → MachInv dep vis out →
      tsortVisit f v dep vis stk out = .error (.pyException fullSortCyclicMsg) ∨
      ∃ vis' out', tsortVisit f v dep vis stk out = .ok (vis', stk, out') ∧
        dictFind vis' v = some false ∧
        (∀ n b, dictFind vis n = some b → dictFind vis' n = some b) ∧
        (∃ ext, out' = out ++ ext) ∧
        MachInv dep vis' out' ∧
        unvisCount allN vis' < unvisCount allN vis) ∧
    (∀ (ds : List Node) (dep : DepMap) (vis : VisMap) (stk out : List Node),
      DepOK dep allN → (∀ d ∈ ds, d ∈ allN) →
      1 + unvisCount allN vis ≤ f → MachInv dep vis out →
      tsortFoldGo (tsortVisit f) ds dep vis stk out =
        .error (.pyException fullSortCyclicMsg) ∨
      ∃ vis' out', tsortFoldGo (tsortVisit f) ds dep vis stk out = .ok (vis', stk, out') ∧
        (∀ d ∈ ds, dictFind vis' d = some false) ∧
        (∀ n b, dictFind vis n = some b → dictFind vis' n = some b) ∧
        (∃ ext, out' = out ++ ext) ∧
        MachInv dep vis' out' ∧
        unvisCount allN vis' ≤ unvisCount allN vis) := by
  intro f
  induction f with
  | zero =>
    constructor
    · intro v dep vis stk out _ _ _ hfuel _
      omega
    · intro ds dep vis stk out _ _ hfuel _
      omega
  | succ f ih =>
    have hv : ∀ (v : Node) (dep : DepMap) (vis : VisMap) (stk out : List Node),
        DepOK dep allN → v ∈ allN → dictFind vis v = none →
        1 + unvisCount allN vis ≤ f + 1 → MachInv dep vis out →
        tsortVisit (f + 1) v dep vis stk out = .error (.pyException fullSortCyclicMsg) ∨
        ∃ vis' out', tsortVisit (f + 1) v dep vis stk out = .ok (vis', stk, out') ∧
          dictFind vis' v = some false ∧
          (∀ n b, dictFind vis n = some b → dictFind vis' n = some b) ∧
          (∃ ext, out' = out ++ ext) ∧
          MachInv dep vis' out' ∧
          unvisCount allN vis' < unvisCount allN vis := by
      intro v dep vis stk out hdep hvall hfresh hfuel hinv
      have hinv1 := gray_inv hinv hfresh
      have hlt1 : unvisCount allN (dictSet vis v true) < unvisCount allN vis :=
        unvisCount_set_fresh hvall hfresh
      cases hdv : dictFind dep v with
      | none =>
        right
        refine ⟨dictSet (dictSet vis v true) v false, out ++ [v], ?_, ?_, ?_, ?_, ?_, ?_⟩
        · simp [tsortVisit, hdv, tsortFinish]
        · simp [dictFind_dictSet]
        · intro n b hb
          have hnv : ¬ (v = n) := by
            intro he
            rw [← he, hfresh] at hb
            cases hb
          rw [dictFind_dictSet, if_neg hnv, dictFind_dictSet, if_neg hnv]
          exact hb
        · exact ⟨[v], rfl⟩
        · have hgray : dictFind (dictSet vis v true) v = some true := by
            simp [dictFind_dictSet]
          exact (blacken_inv hinv1 hgray
            (fun d hd => absurd hd (depRel_of_find_none hdv d))).1
        · have hvg : dictFind (dictSet vis v true) v = some true := by
            simp [dictFind_dictSet]
          rw [unvisCount_set_existing hvg]
          exact hlt1
      | some ds =>
        have hds : ∀ d ∈ ds, d ∈ allN := hdep v ds hdv
        have hfuel1 : 1 + unvisCount allN (dictSet vis v true) ≤ f := by omega
        rcases ih.2 ds dep (dictSet vis v true) (v :: stk) out hdep hds hfuel1 hinv1 with
          herr | ⟨vis2, out2, heq, hdsblack, hpres2, ⟨ext2, hext2⟩, hinv2, hle2⟩
        · left
          simp [tsortVisit, hdv, herr]
        · right
          have hgray2 : dictFind vis2 v = some true :=
            hpres2 v true (by simp [dictFind_dictSet])
          have hdeps2 : ∀ d, depRel dep v d → dictFind vis2 d = some false :=
            fun d hd => hdsblack d ((depRel_of_find hdv d).mp hd)
          obtain ⟨hinv3, hvout⟩ := blacken_inv hinv2 hgray2 hdeps2
          refine ⟨dictSet vis2 v false, out2 ++ [v], ?_, ?_, ?_, ?_, hinv3, ?_⟩
          · simp [tsortVisit, hdv, heq, tsortFinish]
          · simp [dictFind_dictSet]
          · intro n b hb
            have hnv : ¬ (v = n) := by
              intro he
              rw [← he, hfresh] at hb
              cases hb
            rw [dictFind_dictSet, if_neg hnv]
            exact hpres2 n b (by rw [dictFind_dictSet, if_neg hnv]; exact hb)
          · exact ⟨ext2 ++ [v], by rw [hext2, List.append_assoc]⟩
          · rw [unvisCount_set_existing hgray2]
            exact Nat.lt_of_le_of_lt hle2 hlt1
    refine ⟨hv, ?_⟩
    intro ds
    induction ds with
    | nil =>
      intro dep vis stk out _ _ _ hinv
      right
      exact ⟨vis, out, rfl, by simp, fun n b h => h, ⟨[], by simp⟩, hinv, Nat.le_refl _⟩
    | cons d rest ihr =>
      intro dep vis stk out hdep hds hfuel hinv
      cases hfd : dictFind vis d with
      | none =>
        rcases hv d dep vis stk out hdep (hds d (List.mem_cons_self d rest)) hfd hfuel hinv with
          herr | ⟨vis2, out2, heq, hdblack, hpres, ⟨ext2, hext2⟩, hinv2, hlt⟩
        · left
          simp [tsortFoldGo, hfd, herr]
        · have hfuel2 : 1 + unvisCount allN vis2 ≤ f + 1 := by omega
          rcases ihr dep vis2 stk out2 hdep
              (fun d' hd' => hds d' (List.mem_cons_of_mem d hd')) hfuel2 hinv2 with
            herr2 | ⟨vis3, out3, heq3, hblackrest, hpres3, ⟨ext3, hext3⟩, hinv3, hle3⟩
          · left
            simp [tsortFoldGo, hfd, heq, herr2]
          · right
            refine ⟨vis3, out3, ?_, ?_, ?_, ?_, hinv3, ?_⟩
            · simp [tsortFoldGo, hfd, heq, heq3]
            · intro d' hd'
              rcases List.mem_cons.mp hd' with he | hm
              · subst he
                exact hpres3 d' false hdblack
              · exact hblackrest d' hm
            · intro n b hb
              exact hpres3 n b (hpres n b hb)
            · exact ⟨ext2 ++ ext3, by rw [hext3, hext2, List.append_assoc]⟩
            · omega
      | some b =>
        cases b with
        | true =>
          left
          simp [tsortFoldGo, hfd]
        | false =>
          rcases ihr dep vis stk out hdep
              (fun d' hd' => hds d' (List.mem_cons_of_mem d hd')) hfuel hinv with
            herr2 | ⟨vis3, out3, heq3, hblackrest, hpres3, hext3, hinv3, hle3⟩
          · left
            simp [tsortFoldGo, hfd, herr2]
          · right
            refine ⟨vis3, out3, ?_, ?_, hpres3, hext3, hinv3, hle3⟩
            · simp [tsortFoldGo, hfd, heq3]
            · intro d' hd'
              rcases List.mem_cons.mp hd' with he | hm
              · subst he
                exact hpres3 d' false hfd
              · exact hblackrest d' hm

/-- The main loop of `full_sort` has exactly the dependency-loop shape
(visit unvisited nodes, raise on an in-progress node, skip finished
ones). -/
lemma tsortMainGo_eq_foldGo
    (visitFn : Node → DepMap → VisMap → List Node → List Node →
      Except PyErr (VisMap × List Node × List Node)) :
    ∀ (l : List Node) (dep : DepMap) (vis : VisMap) (stk out : List Node),
    tsortMainGo visitFn l dep vis stk out = tsortFoldGo visitFn l dep vis stk out := by
  intro l
  induction l with
  | nil => intro dep vis stk out; rfl
  | cons x r ih =>
    intro dep vis stk out
    simp only [tsortMainGo, tsortFoldGo]
    cases hf : dictFind vis x with
    | none =>
      cases hv : visitFn x dep vis stk out with
      | error e => rfl
      | ok st =>
        obtain ⟨vis', stk', out'⟩ := st
        exact ih dep vis' stk' out'
    | some b =>
      cases b with
      | true => rfl
      | false => exact ih dep vis stk out

lemma transGen_first_edge {α : Type} {r : α → α → Prop} {a b : α}
    (h : Relation.TransGen r a b) : ∃ y, r a y := by
  induction h using Relation.TransGen.head_induction_on with
  | base h => exact ⟨_, h⟩
  | ih h _ _ => exact ⟨_, h⟩

/-- Claim C7: for every input to `Order.full_sort` whose dependency graph
(through the `occurs_before`/`occurs_after` labels) contains a cycle, the
sort terminates by raising the fatal cyclic-dependency failure
("cyclic dependency in orders"): it never loops forever (the embedding is
total and the fuel bound `suffFuel` is proven sufficient, so the
recursion-limit marker is never returned) and never returns a silently
wrong order (it returns no order at all). -/
theorem full_sort_cycle_raises :
    ∀ (orders : List POrder), hasCycle orders →
      pyFullSort orders = .error (.pyException fullSortCyclicMsg) := by
  intro orders hcyc
  obtain ⟨x, hx⟩ := hcyc
  set allN := allNodesOf orders with hallN
  set dep0 := (buildDepends orders).1 with hdep0
  set input0 := (buildDepends orders).2 with hinput0
  set dep := dep0.map (fun (kv : Node × List Node) => (kv.1, pySortBy nodeLe kv.2)) with hdep
  set inputList := pySortBy nodeLe input0 with hinputList
  have hmemAll : ∀ d : Node,
      (d ∈ input0 ∨ d ∈ dep0.foldr (fun (kv : Node × List Node) acc => kv.2 ++ acc) []) →
      d ∈ allN := by
    intro d hd
    rw [hallN]
    show d ∈ allNodesOf orders
    unfold allNodesOf
    rw [List.mem_dedup]
    exact List.mem_append.mpr hd
  have hDepOK : DepOK dep allN := by
    intro k ds hfind d hd
    rw [hdep, dictFind_map_sort] at hfind
    cases h0 : dictFind dep0 k with
    | none => rw [h0] at hfind; cases hfind
    | some ds0 =>
      rw [h0] at hfind
      simp only [Option.map] at hfind
      have hds : ds = pySortBy nodeLe ds0 := (Option.some.inj hfind).symm
      have hd0 : d ∈ ds0 := mem_pySortBy.mp (hds ▸ hd)
      exact hmemAll d (Or.inr (mem_foldrConcat (dictFind_mem h0) hd0))
  have hInputAll : ∀ n ∈ inputList, n ∈ allN := by
    intro n hn
    exact hmemAll n (Or.inl (mem_pySortBy.mp hn))
  have hfuelTop : 1 + unvisCount allN ([] : VisMap) ≤ suffFuel orders := by
    have hlen : unvisCount allN ([] : VisMap) ≤ allN.length := by
      unfold unvisCount
      exact List.length_filter_le _ _
    have : suffFuel orders = allN.length + 1 := rfl
    omega
  have hInv0 : MachInv dep ([] : VisMap) [] := by
    refine ⟨?_, ?_, List.nodup_nil⟩
    · intro n
      simp [dictFind]
    · intro a ha
      cases ha
  have hspec := (tsortSpec allN (suffFuel orders)).2 inputList dep [] [] []
    hDepOK hInputAll hfuelTop hInv0
  rw [← tsortMainGo_eq_foldGo] at hspec
  have hbd : buildDepends orders = (dep0, input0) := rfl
  rcases hspec with herr | ⟨vis', out', heq, hallblack, _, _, hinv', _⟩
  · show (match tsortMainGo (tsortVisit (suffFuel orders)) inputList dep [] [] [] with
      | .error e => .error e
      | .ok (_, _, sortedList) =>
        .ok (sortedList.filterMap (fun n =>
          match n with
          | .ord o => some o
          | .str _ => none))) = Except.error (.pyException fullSortCyclicMsg)
    rw [herr]
  · exfalso
    have hx' : Relation.TransGen (depRel dep) x x := by
      refine Relation.TransGen.mono ?_ hx
      intro a b h
      exact (depRel_sorted_iff dep0 a b).mpr h
    obtain ⟨hB, hT, hN⟩ := hinv'
    have hdesc : ∀ a b, Relation.TransGen (depRel dep) a b → a ∈ out' →
        b ∈ out' ∧ idxOfN b out' < idxOfN a out' := by
      intro a b hTG
      induction hTG with
      | single h => intro ha; exact hT a ha _ h
      | tail _ hstep ih =>
        intro ha
        obtain ⟨hb, hlt⟩ := ih ha
        obtain ⟨hc, hlt2⟩ := hT _ hb _ hstep
        exact ⟨hc, Nat.lt_trans hlt2 hlt⟩
    have hedge : ∃ y, depRel dep x y := transGen_first_edge hx'
    have hx0key : (dictFind dep0 x).isSome := by
      obtain ⟨y, hy⟩ := hedge
      have hy0 : depRel dep0 x y := (depRel_sorted_iff dep0 x y).mp hy
      unfold depRel at hy0
      cases h0 : dictFind dep0 x with
      | none => rw [h0] at hy0; exact hy0.elim
      | some _ => simp
    have hxinput : x ∈ inputList := by
      rw [hinputList, mem_pySortBy]
      exact buildDepends_keysIn orders x hx0key
    have hxout : x ∈ out' := (hB x).mp (hallblack x hxinput)
    obtain ⟨_, hlt⟩ := hdesc x x hx' hxout
    exact Nat.lt_irrefl _ hlt

theorem full_sort_cycle_raises_witness :
    hasCycle [orderWithCycle] ∧
    pyFullSort [orderWithCycle] = .error (.pyException fullSortCyclicMsg) := by
  have h1 : depRel (buildDepends [orderWithCycle]).1 (.ord orderWithCycle) (.str "x") := by
    show (Node.str "x") ∈ [Node.str "x"]
    exact List.mem_cons_self _ _
  have h2 : depRel (buildDepends [orderWithCycle]).1 (.str "x") (.ord orderWithCycle) := by
    show (Node.ord orderWithCycle) ∈ [Node.ord orderWithCycle]
    exact List.mem_cons_self _ _
  have hcyc : hasCycle [orderWithCycle] :=
    ⟨.ord orderWithCycle, Relation.TransGen.head h1 (Relation.TransGen.single h2)⟩
  exact ⟨hcyc, full_sort_cycle_raises [orderWithCycle] hcyc⟩
